import Mathlib

/-!
Verification of the `linked5` doubly-linked list (`src/linked5/mod.rs`).

The Rust code stores each element in a `Node { value, prev: Weak<RefCell<Node>>,
next: Option<Rc<RefCell<Node>>> }` and the container is
`List { first: Option<Rc<RefCell<Node>>>, tail: Weak<RefCell<Node>> }`.

Shallow embedding: the heap of `Rc` allocations is a list of `Option Node`
indexed by address; `none` marks a freed slot.  Addresses are never reused
(allocation always appends), which matches `Weak` semantics: upgrading a weak
reference succeeds exactly when the target allocation is still live, and
`ptr::eq` on two live `Rc`s is address equality.  A strong reference (`first`,
`next`) is an address that is kept live by the structure; a weak reference
(`prev`, `tail`) is `Option Nat` where `none` models `Weak::new()` and
`some a` may dangle (slot `a` freed).  A node is deallocated (slot set to
`none`) at the point where its last strong reference disappears in the Rust
code, i.e. at the end of `pop_first` / `pop_tail` for the popped node.
-/

namespace Linked5

structure Node where
  value : Int
  prev : Option Nat
  next : Option Nat
deriving DecidableEq

abbrev Heap := List (Option Node)

/-- Dereference address `a`: `some` node when the allocation is live. -/
def nodeAt (h : Heap) (a : Nat) : Option Node := h.getD a none

/-- Model of `Weak::upgrade`: succeeds iff the target allocation is live. -/
def upgrade (h : Heap) (w : Option Nat) : Option Nat :=
  match w with
  | none => none
  | some a => if (nodeAt h a).isSome then some a else none

/-- Write the `next` field of the (live) node at `a`; models
`a.borrow_mut().next = nx`. -/
def setNext (h : Heap) (a : Nat) (nx : Option Nat) : Heap :=
  match nodeAt h a with
  | some nd => h.set a (some { nd with next := nx })
  | none => h

/-- Write the `prev` field of the (live) node at `a`; models
`a.borrow_mut().prev = p`. -/
def setPrev (h : Heap) (a : Nat) (p : Option Nat) : Heap :=
  match nodeAt h a with
  | some nd => h.set a (some { nd with prev := p })
  | none => h

/-- Deallocate the node at `a` (its last `Rc` was dropped). -/
def freeNode (h : Heap) (a : Nat) : Heap := h.set a none

/-- `List { first, tail }` of the source; named `LList` because `List` is
taken by Lean.  `first` is strong, `tail` is weak. -/
structure LList where
  first : Option Nat
  tail : Option Nat
deriving DecidableEq

/-- `List::new()` / `Default::default()`: `first: None, tail: Weak::new()`. -/
def LList.new : LList := { first := none, tail := none }

/-- One iteration `i` of `from_vec`'s linking loop:
`nodes[i].borrow_mut().next = Some(nodes[i+1]); nodes[i+1].borrow_mut().prev = i`. -/
def linkPair (h : Heap) (a b : Nat) : Heap :=
  setPrev (setNext h a (some b)) b (some a)

/-- The linking loop `for i in 0..nodes.len()-1` of `from_vec`, running
iterations `0, 1, …, k-1` in order. -/
def linkPass (h : Heap) (base : Nat) : Nat → Heap
  | 0 => h
  | k + 1 => linkPair (linkPass h base k) (base + k) (base + k + 1)

/-- `List::from_vec`: allocate one node per value (all links empty), then link
adjacent pairs; `first` is the first allocation, `tail` the last. -/
def from_vec (h : Heap) (v : List Int) : Heap × LList :=
  if v.isEmpty then (h, { first := none, tail := none })
  else
    let base := h.length
    let h1 := h ++ v.map (fun n => some { value := n, prev := none, next := none })
    let h2 := linkPass h1 base (v.length - 1)
    (h2, { first := some base, tail := some (base + (v.length - 1)) })

/-- Iterator state `IterList { cursor, revcursor }`; `cursor` and `revcursor`
both hold strong references (`Option<Rc<…>>`). -/
structure IterList where
  cursor : Option Nat
  revcursor : Option Nat
deriving DecidableEq

/-- `List::iter()`: `cursor = first.clone(), revcursor = tail.upgrade()`. -/
def iter (h : Heap) (l : LList) : IterList :=
  { cursor := l.first, revcursor := upgrade h l.tail }

/-- `<IterList as Iterator>::next`.  Reads the value under `cursor`; then, if
`cursor` and `revcursor` are the same allocation (`ptr::eq`), sets `cursor`
to `None`, otherwise advances `cursor` along `next`.  `revcursor` is not
touched.  No heap cell is written, so the heap is returned unchanged. -/
def IterList.next (h : Heap) (it : IterList) : Option Int × IterList × Heap :=
  let ret := it.cursor.bind fun a => (nodeAt h a).map Node.value
  let newCursor : Option Nat :=
    match it.cursor with
    | some a =>
      let reached_rcursor :=
        match it.revcursor with
        | some r => r == a
        | none => false
      if reached_rcursor then none
      else (nodeAt h a).bind Node.next
    | none => none
  (ret, { cursor := newCursor, revcursor := it.revcursor }, h)

/-- `<IterList as DoubleEndedIterator>::next_back`: mirror image of `next`,
moving `revcursor` along `prev.upgrade()`; `cursor` is not touched. -/
def IterList.next_back (h : Heap) (it : IterList) : Option Int × IterList × Heap :=
  let ret := it.revcursor.bind fun a => (nodeAt h a).map Node.value
  let newRev : Option Nat :=
    match it.revcursor with
    | some a =>
      let reached_lcursor :=
        match it.cursor with
        | some r => r == a
        | none => false
      if reached_lcursor then none
      else (nodeAt h a).bind fun nd => upgrade h nd.prev
    | none => none
  (ret, { cursor := it.cursor, revcursor := newRev }, h)

/-- `Iterator::collect` driving `next` until it yields `None` (with enough
fuel; the chain is finite so `heapLen + 1` steps always suffice). -/
def collectFwd : Nat → Heap → IterList → List Int × Heap
  | 0, h, _ => ([], h)
  | fuel + 1, h, it =>
    match IterList.next h it with
    | (none, _, h2) => ([], h2)
    | (some v, it2, h2) =>
      let r := collectFwd fuel h2 it2
      (v :: r.1, r.2)

/-- `Iterator::collect` on `iter().rev()`, driving `next_back`. -/
def collectBwd : Nat → Heap → IterList → List Int × Heap
  | 0, h, _ => ([], h)
  | fuel + 1, h, it =>
    match IterList.next_back h it with
    | (none, _, h2) => ([], h2)
    | (some v, it2, h2) =>
      let r := collectBwd fuel h2 it2
      (v :: r.1, r.2)

/-- `List::to_vec`: `self.iter().collect()`. -/
def to_vec (h : Heap) (l : LList) : List Int × Heap :=
  collectFwd (h.length + 1) h (iter h l)

/-- `List::to_vec_rev`: `self.iter().rev().collect()`. -/
def to_vec_rev (h : Heap) (l : LList) : List Int × Heap :=
  collectBwd (h.length + 1) h (iter h l)

/-- `List::concat(other_list)`: no-op when `other` is empty; otherwise splice
`other`'s chain after the receiver's tail (or adopt it when the receiver is
empty), taking over `other`'s tail handle. -/
def concat (h : Heap) (l : LList) (other_list : LList) : Heap × LList :=
  match other_list.first with
  | none => (h, l)
  | some other =>
    match upgrade h l.tail with
    | some tailref =>
      let h1 := setPrev h other (some tailref)
      let h2 := setNext h1 tailref (some other)
      (h2, { first := l.first, tail := other_list.tail })
    | none => (h, { first := some other, tail := other_list.tail })

/-- `List::append(value)`: allocate a node at the end of the heap; if a tail
exists, link it after the tail, otherwise it becomes both `first` and `tail`. -/
def append (h : Heap) (l : LList) (value : Int) : Heap × LList :=
  match upgrade h l.tail with
  | some tailref =>
    let a := h.length
    let h1 := h ++ [some { value := value, prev := some tailref, next := none }]
    let h2 := setNext h1 tailref (some a)
    (h2, { first := l.first, tail := some a })
  | none =>
    let a := h.length
    let h1 := h ++ [some { value := value, prev := none, next := none }]
    (h1, { first := some a, tail := some a })

/-- `List::insert_first(value)`: allocate a node in front of `first`. -/
def insert_first (h : Heap) (l : LList) (value : Int) : Heap × LList :=
  match l.first with
  | some f =>
    let a := h.length
    let h1 := h ++ [some { value := value, prev := none, next := some f }]
    let h2 := setPrev h1 f (some a)
    (h2, { first := some a, tail := l.tail })
  | none =>
    let a := h.length
    let h1 := h ++ [some { value := value, prev := none, next := none }]
    (h1, { first := some a, tail := some a })

/-- `List::slow_from_vec`: builds by repeated `append` from `Self::new()`
(fresh empty heap). -/
def slow_from_vec (v : List Int) : Heap × LList :=
  v.foldl (fun s n => append s.1 s.2 n) ([], LList.new)

/-- `List::peek_front`: `self.first.as_ref().map(|f| f.borrow().value)`. -/
def peek_front (h : Heap) (l : LList) : Option Int :=
  l.first.bind fun f => (nodeAt h f).map Node.value

/-- `List::peek_end`: `self.tail.upgrade().map(|f| f.borrow().value)`. -/
def peek_end (h : Heap) (l : LList) : Option Int :=
  (upgrade h l.tail).bind fun f => (nodeAt h f).map Node.value

/-- `List::pop_tail`.  The popped node's deallocation (last `Rc` dropped when
`tailref` goes out of scope) is modelled by the final `freeNode`. -/
def pop_tail (h : Heap) (l : LList) : Heap × LList × Option Int :=
  match upgrade h l.tail with
  | none => (h, l, none)
  | some tailref =>
    match nodeAt h tailref with
    | none => (h, l, none)
    | some tl =>
      let newtailw := tl.prev
      let h1 :=
        match upgrade h tl.prev with
        | some newtail => setNext h newtail none
        | none => h
      let first1 := if (upgrade h1 newtailw).isNone then none else l.first
      let h2 := setPrev h1 tailref none
      let h3 := freeNode h2 tailref
      (h3, { first := first1, tail := newtailw }, some tl.value)

/-- `List::pop_first`.  Note the source reads `first.next` only *after*
setting it to `None`, so the `if let` that was meant to clear the new first
node's `prev` never runs; the popped node is freed on return (`freeNode`),
which is what makes the stale `prev` upgrade to nothing. -/
def pop_first (h : Heap) (l : LList) : Heap × LList × Option Int :=
  match l.first with
  | none => (h, l, none)
  | some firstref =>
    match nodeAt h firstref with
    | none => (h, l, none)
    | some fnd =>
      let first1 := fnd.next
      let h1 := setNext h firstref none
      let tail1 := if first1.isNone then none else l.tail
      let h2 := freeNode h1 firstref
      (h2, { first := first1, tail := tail1 }, some fnd.value)

/-- The loop body of `impl Drop for Node`: starting from the first successor,
repeatedly `take` the current node's `next` (severing it) and move on while
the taken successor itself has a successor.  Deallocation of the walked nodes
is elided (the whole chain is being dropped); only the link writes matter. -/
def dropLoop : Nat → Heap → Nat → Heap
  | 0, h, _ => h
  | fuel + 1, h, cur =>
    match nodeAt h cur with
    | none => h
    | some nd =>
      match nd.next with
      | none => h
      | some curnext =>
        let h1 := setNext h cur none
        match (nodeAt h1 curnext).bind Node.next with
        | some _ => dropLoop fuel h1 curnext
        | none => h1

/-- `<Node as Drop>::drop` for the node at `a`: if it has a successor, run the
severing loop from that successor. -/
def dropNode (h : Heap) (a : Nat) : Heap :=
  match (nodeAt h a).bind Node.next with
  | none => h
  | some rc => dropLoop h.length h rc

/-- Repeated `pop_first`, collecting the returned values (stopping at `None`),
as in `while let Some(val) = l.pop_first()`. -/
def popAllFirst : Nat → Heap → LList → List Int
  | 0, _, _ => []
  | n + 1, h, l =>
    match pop_first h l with
    | (h2, l2, some v) => v :: popAllFirst n h2 l2
    | (_, _, none) => []

/-- Repeated `pop_tail`, collecting the returned values. -/
def popAllTail : Nat → Heap → LList → List Int
  | 0, _, _ => []
  | n + 1, h, l =>
    match pop_tail h l with
    | (h2, l2, some v) => v :: popAllTail n h2 l2
    | (_, _, none) => []

/-- A sequence of pops taken from either end: `true` = `pop_first`,
`false` = `pop_tail`. -/
def popSeq : List Bool → Heap → LList → Heap × LList
  | [], h, l => (h, l)
  | d :: ds, h, l =>
    let s := if d then pop_first h l else pop_tail h l
    popSeq ds s.1 s.2.1

/-! ## Basic heap lemmas -/

theorem nodeAt_eq_getElem? (h : Heap) (a : Nat) : nodeAt h a = (h[a]?).getD none := by
  simp [nodeAt, List.getD_eq_getElem?_getD]

theorem nodeAt_lt_length {h : Heap} {a : Nat} {nd : Node} (hx : nodeAt h a = some nd) :
    a < h.length := by
  by_contra hc
  have hn : h[a]? = none := List.getElem?_eq_none (by omega)
  rw [nodeAt_eq_getElem?, hn] at hx
  simp at hx

theorem nodeAt_isSome_lt {h : Heap} {a : Nat} (hx : (nodeAt h a).isSome = true) :
    a < h.length := by
  rcases Option.isSome_iff_exists.mp hx with ⟨nd, hnd⟩
  exact nodeAt_lt_length hnd

theorem nodeAt_set_self {h : Heap} {a : Nat} (x : Option Node) (ha : a < h.length) :
    nodeAt (h.set a x) a = x := by
  rw [nodeAt_eq_getElem?, List.getElem?_set_self ha]
  rfl

theorem nodeAt_set_ne {h : Heap} {a b : Nat} (x : Option Node) (hne : a ≠ b) :
    nodeAt (h.set a x) b = nodeAt h b := by
  rw [nodeAt_eq_getElem?, nodeAt_eq_getElem?, List.getElem?_set_ne hne]

theorem nodeAt_append_left {h h2 : Heap} {a : Nat} (ha : a < h.length) :
    nodeAt (h ++ h2) a = nodeAt h a := by
  rw [nodeAt_eq_getElem?, nodeAt_eq_getElem?, List.getElem?_append_left ha]

theorem nodeAt_append_right {h h2 : Heap} {i : Nat} :
    nodeAt (h ++ h2) (h.length + i) = nodeAt h2 i := by
  have hr : (h ++ h2)[h.length + i]? = h2[h.length + i - h.length]? :=
    List.getElem?_append_right (by omega)
  rw [Nat.add_sub_cancel_left] at hr
  rw [nodeAt_eq_getElem?, nodeAt_eq_getElem?, hr]

theorem length_setNext (h : Heap) (a : Nat) (nx : Option Nat) :
    (setNext h a nx).length = h.length := by
  unfold setNext
  cases nodeAt h a <;> simp

theorem length_setPrev (h : Heap) (a : Nat) (p : Option Nat) :
    (setPrev h a p).length = h.length := by
  unfold setPrev
  cases nodeAt h a <;> simp

theorem length_freeNode (h : Heap) (a : Nat) : (freeNode h a).length = h.length := by
  simp [freeNode]

theorem nodeAt_setNext_ne {h : Heap} {a b : Nat} (nx : Option Nat) (hne : a ≠ b) :
    nodeAt (setNext h a nx) b = nodeAt h b := by
  unfold setNext
  cases hx : nodeAt h a with
  | none => rfl
  | some nd => exact nodeAt_set_ne _ hne

theorem nodeAt_setNext_self {h : Heap} {a : Nat} {nd : Node} (nx : Option Nat)
    (hx : nodeAt h a = some nd) :
    nodeAt (setNext h a nx) a = some { nd with next := nx } := by
  unfold setNext
  rw [hx]
  exact nodeAt_set_self _ (nodeAt_lt_length hx)

theorem nodeAt_setPrev_ne {h : Heap} {a b : Nat} (p : Option Nat) (hne : a ≠ b) :
    nodeAt (setPrev h a p) b = nodeAt h b := by
  unfold setPrev
  cases hx : nodeAt h a with
  | none => rfl
  | some nd => exact nodeAt_set_ne _ hne

theorem nodeAt_setPrev_self {h : Heap} {a : Nat} {nd : Node} (p : Option Nat)
    (hx : nodeAt h a = some nd) :
    nodeAt (setPrev h a p) a = some { nd with prev := p } := by
  unfold setPrev
  rw [hx]
  exact nodeAt_set_self _ (nodeAt_lt_length hx)

theorem nodeAt_freeNode_ne {h : Heap} {a b : Nat} (hne : a ≠ b) :
    nodeAt (freeNode h a) b = nodeAt h b := by
  unfold freeNode
  exact nodeAt_set_ne _ hne

theorem nodeAt_freeNode_self {h : Heap} {a : Nat} (ha : a < h.length) :
    nodeAt (freeNode h a) a = none := by
  unfold freeNode
  exact nodeAt_set_self _ ha

/-! ## Upgrade and dead-reference lemmas -/

/-- A weak reference that resolves to nothing: either `Weak::new()` or a
dangling pointer into the heap (slot freed).  Tracking the bound makes this
stable under later allocations, which never reuse addresses. -/
def deadRef (h : Heap) (w : Option Nat) : Bool :=
  match w with
  | none => true
  | some b => decide (b < h.length) && (nodeAt h b).isNone

theorem upgrade_none (h : Heap) : upgrade h none = none := rfl

theorem upgrade_some_of_alive {h : Heap} {a : Nat} (ha : (nodeAt h a).isSome = true) :
    upgrade h (some a) = some a := by
  simp [upgrade, ha]

theorem upgrade_eq_of_alive_eq {h h2 : Heap} {w : Option Nat}
    (heq : ∀ b, (nodeAt h2 b).isSome = (nodeAt h b).isSome) :
    upgrade h2 w = upgrade h w := by
  cases w with
  | none => rfl
  | some a => simp [upgrade, heq a]

theorem deadRef_upgrade {h : Heap} {w : Option Nat} (hd : deadRef h w = true) :
    upgrade h w = none := by
  cases w with
  | none => rfl
  | some b =>
    simp only [deadRef, Bool.and_eq_true, decide_eq_true_eq, Option.isNone_iff_eq_none] at hd
    simp [upgrade, hd.2]

theorem alive_setNext {h : Heap} (a : Nat) (nx : Option Nat) (b : Nat) :
    (nodeAt (setNext h a nx) b).isSome = (nodeAt h b).isSome := by
  rcases eq_or_ne a b with rfl | hne
  · cases hx : nodeAt h a with
    | none => simp [setNext, hx]
    | some nd => simp [nodeAt_setNext_self _ hx, hx]
  · rw [nodeAt_setNext_ne _ hne]

theorem alive_setPrev {h : Heap} (a : Nat) (p : Option Nat) (b : Nat) :
    (nodeAt (setPrev h a p) b).isSome = (nodeAt h b).isSome := by
  rcases eq_or_ne a b with rfl | hne
  · cases hx : nodeAt h a with
    | none => simp [setPrev, hx]
    | some nd => simp [nodeAt_setPrev_self _ hx, hx]
  · rw [nodeAt_setPrev_ne _ hne]

theorem upgrade_setNext (h : Heap) (a : Nat) (nx : Option Nat) (w : Option Nat) :
    upgrade (setNext h a nx) w = upgrade h w :=
  upgrade_eq_of_alive_eq (alive_setNext a nx)

theorem upgrade_setPrev (h : Heap) (a : Nat) (p : Option Nat) (w : Option Nat) :
    upgrade (setPrev h a p) w = upgrade h w :=
  upgrade_eq_of_alive_eq (alive_setPrev a p)

theorem deadRef_setNext {h : Heap} {w : Option Nat} (a : Nat) (nx : Option Nat)
    (hd : deadRef h w = true) : deadRef (setNext h a nx) w = true := by
  cases w with
  | none => rfl
  | some b =>
    simp only [deadRef, Bool.and_eq_true, decide_eq_true_eq, Option.isNone_iff_eq_none] at hd ⊢
    refine ⟨by rw [length_setNext]; exact hd.1, ?_⟩
    have := @alive_setNext h a nx b
    rw [hd.2] at this
    simpa [Option.isSome_iff_exists, Option.isNone_iff_eq_none] using
      Option.not_isSome_iff_eq_none.mp (by simp [this])

theorem deadRef_setPrev {h : Heap} {w : Option Nat} (a : Nat) (p : Option Nat)
    (hd : deadRef h w = true) : deadRef (setPrev h a p) w = true := by
  cases w with
  | none => rfl
  | some b =>
    simp only [deadRef, Bool.and_eq_true, decide_eq_true_eq, Option.isNone_iff_eq_none] at hd ⊢
    refine ⟨by rw [length_setPrev]; exact hd.1, ?_⟩
    have := @alive_setPrev h a p b
    rw [hd.2] at this
    simpa [Option.isSome_iff_exists, Option.isNone_iff_eq_none] using
      Option.not_isSome_iff_eq_none.mp (by simp [this])

theorem deadRef_freeNode {h : Heap} {w : Option Nat} (a : Nat)
    (hd : deadRef h w = true) : deadRef (freeNode h a) w = true := by
  cases w with
  | none => rfl
  | some b =>
    simp only [deadRef, Bool.and_eq_true, decide_eq_true_eq, Option.isNone_iff_eq_none] at hd ⊢
    refine ⟨by rw [length_freeNode]; exact hd.1, ?_⟩
    rcases eq_or_ne a b with rfl | hne
    · rcases Nat.lt_or_ge a h.length with hlt | hge
      · exact nodeAt_freeNode_self hlt
      · rw [freeNode, List.set_eq_of_length_le (by omega)]
        exact hd.2
    · rw [nodeAt_freeNode_ne hne]
      exact hd.2

theorem deadRef_append {h h2 : Heap} {w : Option Nat} (hd : deadRef h w = true) :
    deadRef (h ++ h2) w = true := by
  cases w with
  | none => rfl
  | some b =>
    simp only [deadRef, Bool.and_eq_true, decide_eq_true_eq, Option.isNone_iff_eq_none] at hd ⊢
    exact ⟨by simp; omega, by rw [nodeAt_append_left hd.1]; exact hd.2⟩

/-! ## The chain predicate

`chainSeg h p addrs vals q` says the heap `h` holds, at the addresses
`addrs`, a doubly-linked chain carrying `vals`: each node's `next` is the
following address (the last one's is `q`), each node's `prev` is literally the
preceding address, and the first node's `prev` resolves to nothing
(`p = none`) or is literally `p`.  This is the well-formedness invariant the
`List` operations maintain. -/

def chainSeg (h : Heap) : Option Nat → List Nat → List Int → Option Nat → Bool
  | _, [], [], _ => true
  | p, a :: as, v :: vs, q =>
    match nodeAt h a with
    | some nd =>
      nd.value == v &&
      (match p with
       | none => deadRef h nd.prev
       | some pp => nd.prev == some pp) &&
      (nd.next == as.head?.or q) &&
      chainSeg h (some a) as vs q
    | none => false
  | _, _, _, _ => false

/-- Condition on the first chain node's `prev` field. -/
def prevOK (h : Heap) (p : Option Nat) (nd : Node) : Prop :=
  match p with
  | none => deadRef h nd.prev = true
  | some pp => nd.prev = some pp

/-- Whole chain: first `prev` resolves to nothing, last `next` is empty. -/
def chainB (h : Heap) (addrs : List Nat) (vals : List Int) : Bool :=
  chainSeg h none addrs vals none

/-- A weak handle that stays meaningful under later allocations: its raw
address, when present, lies inside the current heap. -/
def boundedW (h : Heap) (w : Option Nat) : Bool :=
  match w with
  | none => true
  | some b => decide (b < h.length)

/-- The structural invariant of a `List` value `l` on heap `h`: its nodes sit
at `addrs` (no duplicates) holding `vals`, chained in both directions;
`first` is the head address and the weak `tail` resolves to the last address
(to nothing iff the chain is empty). -/
def Inv (h : Heap) (l : LList) (addrs : List Nat) (vals : List Int) : Prop :=
  addrs.Nodup ∧ chainB h addrs vals = true ∧
  l.first = addrs.head? ∧ upgrade h l.tail = addrs.getLast? ∧ boundedW h l.tail = true

theorem chainSeg_nil (h : Heap) (p q : Option Nat) : chainSeg h p [] [] q = true := rfl

theorem chainSeg_nil_cons (h : Heap) (p q : Option Nat) (v : Int) (vs : List Int) :
    chainSeg h p [] (v :: vs) q = false := rfl

theorem chainSeg_cons_nil (h : Heap) (p q : Option Nat) (a : Nat) (as : List Nat) :
    chainSeg h p (a :: as) [] q = false := rfl

theorem chainSeg_cons_iff {h : Heap} {p : Option Nat} {a : Nat} {as : List Nat}
    {v : Int} {vs : List Int} {q : Option Nat} :
    chainSeg h p (a :: as) (v :: vs) q = true ↔
      ∃ nd, nodeAt h a = some nd ∧ nd.value = v ∧ prevOK h p nd ∧
        nd.next = as.head?.or q ∧ chainSeg h (some a) as vs q = true := by
  show (match nodeAt h a with
    | some nd =>
      nd.value == v &&
      (match p with
       | none => deadRef h nd.prev
       | some pp => nd.prev == some pp) &&
      (nd.next == as.head?.or q) &&
      chainSeg h (some a) as vs q
    | none => false) = true ↔ _
  cases hx : nodeAt h a with
  | none => simp
  | some nd =>
    cases p <;>
      simp [prevOK, Bool.and_eq_true, beq_iff_eq, and_assoc, @eq_comm _ nd]

theorem chainSeg_lengths {h : Heap} :
    ∀ {addrs : List Nat} {vals : List Int} {p q : Option Nat},
      chainSeg h p addrs vals q = true → addrs.length = vals.length := by
  intro addrs
  induction addrs with
  | nil =>
    intro vals p q hc
    cases vals with
    | nil => rfl
    | cons v vs => rw [chainSeg_nil_cons] at hc; cases hc
  | cons a as ih =>
    intro vals p q hc
    cases vals with
    | nil => rw [chainSeg_cons_nil] at hc; cases hc
    | cons v vs =>
      rcases chainSeg_cons_iff.mp hc with ⟨nd, _, _, _, _, htl⟩
      simpa using ih htl

theorem chainSeg_alive {h : Heap} :
    ∀ {addrs : List Nat} {vals : List Int} {p q : Option Nat},
      chainSeg h p addrs vals q = true → ∀ b ∈ addrs, (nodeAt h b).isSome = true := by
  intro addrs
  induction addrs with
  | nil => intro vals p q _ b hb; cases hb
  | cons a as ih =>
    intro vals p q hc b hb
    cases vals with
    | nil => rw [chainSeg_cons_nil] at hc; cases hc
    | cons v vs =>
      rcases chainSeg_cons_iff.mp hc with ⟨nd, hnd, _, _, _, htl⟩
      rcases List.mem_cons.mp hb with rfl | hb2
      · simp [hnd]
      · exact ih htl b hb2

theorem chainSeg_lt_length {h : Heap} {addrs : List Nat} {vals : List Int}
    {p q : Option Nat} (hc : chainSeg h p addrs vals q = true) :
    ∀ b ∈ addrs, b < h.length :=
  fun b hb => nodeAt_isSome_lt (chainSeg_alive hc b hb)

theorem prevOK_setNext {h : Heap} {p : Option Nat} {nd : Node} (a : Nat) (nx : Option Nat)
    (hp : prevOK h p nd) : prevOK (setNext h a nx) p nd := by
  cases p with
  | none => exact deadRef_setNext a nx hp
  | some pp => exact hp

theorem prevOK_setPrev {h : Heap} {p : Option Nat} {nd : Node} (a : Nat) (pw : Option Nat)
    (hp : prevOK h p nd) : prevOK (setPrev h a pw) p nd := by
  cases p with
  | none => exact deadRef_setPrev a pw hp
  | some pp => exact hp

theorem prevOK_freeNode {h : Heap} {p : Option Nat} {nd : Node} (a : Nat)
    (hp : prevOK h p nd) : prevOK (freeNode h a) p nd := by
  cases p with
  | none => exact deadRef_freeNode a hp
  | some pp => exact hp

theorem prevOK_append {h h2 : Heap} {p : Option Nat} {nd : Node}
    (hp : prevOK h p nd) : prevOK (h ++ h2) p nd := by
  cases p with
  | none => exact deadRef_append hp
  | some pp => exact hp

theorem chainSeg_setNext_notmem {h : Heap} {b : Nat} {nx : Option Nat} :
    ∀ {addrs : List Nat} {vals : List Int} {p q : Option Nat},
      b ∉ addrs → chainSeg h p addrs vals q = true →
      chainSeg (setNext h b nx) p addrs vals q = true := by
  intro addrs
  induction addrs with
  | nil =>
    intro vals p q _ hc
    cases vals with
    | nil => rfl
    | cons v vs => rw [chainSeg_nil_cons] at hc; cases hc
  | cons a as ih =>
    intro vals p q hb hc
    cases vals with
    | nil => rw [chainSeg_cons_nil] at hc; cases hc
    | cons v vs =>
      rcases chainSeg_cons_iff.mp hc with ⟨nd, hnd, hv, hp, hn, htl⟩
      refine chainSeg_cons_iff.mpr ⟨nd, ?_, hv, prevOK_setNext b nx hp, hn,
        ih (fun hmem => hb (List.mem_cons_of_mem a hmem)) htl⟩
      rw [nodeAt_setNext_ne _ (fun he => hb (by rw [he]; exact List.mem_cons_self a as))]
      exact hnd

theorem chainSeg_setPrev_notmem {h : Heap} {b : Nat} {pw : Option Nat} :
    ∀ {addrs : List Nat} {vals : List Int} {p q : Option Nat},
      b ∉ addrs → chainSeg h p addrs vals q = true →
      chainSeg (setPrev h b pw) p addrs vals q = true := by
  intro addrs
  induction addrs with
  | nil =>
    intro vals p q _ hc
    cases vals with
    | nil => rfl
    | cons v vs => rw [chainSeg_nil_cons] at hc; cases hc
  | cons a as ih =>
    intro vals p q hb hc
    cases vals with
    | nil => rw [chainSeg_cons_nil] at hc; cases hc
    | cons v vs =>
      rcases chainSeg_cons_iff.mp hc with ⟨nd, hnd, hv, hp, hn, htl⟩
      refine chainSeg_cons_iff.mpr ⟨nd, ?_, hv, prevOK_setPrev b pw hp, hn,
        ih (fun hmem => hb (List.mem_cons_of_mem a hmem)) htl⟩
      rw [nodeAt_setPrev_ne _ (fun he => hb (by rw [he]; exact List.mem_cons_self a as))]
      exact hnd

theorem chainSeg_freeNode_notmem {h : Heap} {b : Nat} :
    ∀ {addrs : List Nat} {vals : List Int} {p q : Option Nat},
      b ∉ addrs → chainSeg h p addrs vals q = true →
      chainSeg (freeNode h b) p addrs vals q = true := by
  intro addrs
  induction addrs with
  | nil =>
    intro vals p q _ hc
    cases vals with
    | nil => rfl
    | cons v vs => rw [chainSeg_nil_cons] at hc; cases hc
  | cons a as ih =>
    intro vals p q hb hc
    cases vals with
    | nil => rw [chainSeg_cons_nil] at hc; cases hc
    | cons v vs =>
      rcases chainSeg_cons_iff.mp hc with ⟨nd, hnd, hv, hp, hn, htl⟩
      refine chainSeg_cons_iff.mpr ⟨nd, ?_, hv, prevOK_freeNode b hp, hn,
        ih (fun hmem => hb (List.mem_cons_of_mem a hmem)) htl⟩
      rw [nodeAt_freeNode_ne (fun he => hb (by rw [he]; exact List.mem_cons_self a as))]
      exact hnd

theorem chainSeg_append_heap {h h2 : Heap} :
    ∀ {addrs : List Nat} {vals : List Int} {p q : Option Nat},
      chainSeg h p addrs vals q = true → chainSeg (h ++ h2) p addrs vals q = true := by
  intro addrs
  induction addrs with
  | nil =>
    intro vals p q hc
    cases vals with
    | nil => rfl
    | cons v vs => rw [chainSeg_nil_cons] at hc; cases hc
  | cons a as ih =>
    intro vals p q hc
    cases vals with
    | nil => rw [chainSeg_cons_nil] at hc; cases hc
    | cons v vs =>
      rcases chainSeg_cons_iff.mp hc with ⟨nd, hnd, hv, hp, hn, htl⟩
      exact chainSeg_cons_iff.mpr ⟨nd,
        by rw [nodeAt_append_left (nodeAt_lt_length hnd)]; exact hnd,
        hv, prevOK_append hp, hn, ih htl⟩

theorem chainSeg_singleton {h : Heap} {p q : Option Nat} {a : Nat} {v : Int} :
    chainSeg h p [a] [v] q = true ↔
      ∃ nd, nodeAt h a = some nd ∧ nd.value = v ∧ prevOK h p nd ∧ nd.next = q := by
  rw [chainSeg_cons_iff]
  constructor
  · rintro ⟨nd, h1, h2, h3, h4, -⟩
    exact ⟨nd, h1, h2, h3, by simpa [Option.none_or] using h4⟩
  · rintro ⟨nd, h1, h2, h3, h4⟩
    exact ⟨nd, h1, h2, h3, by simpa [Option.none_or] using h4, chainSeg_nil h _ _⟩

theorem getLast?_cons_or (a : Nat) (as : List Nat) (p : Option Nat) :
    (a :: as).getLast?.or p = as.getLast?.or (some a) := by
  cases as with
  | nil => simp
  | cons b bs =>
    rw [List.getLast?_cons_cons]
    have hs : ((b :: bs).getLast?).isSome = true := List.getLast?_isSome.mpr (by simp)
    rw [Option.or_of_isSome hs, Option.or_of_isSome hs]

theorem chainSeg_append_decomp {h : Heap} :
    ∀ (as : List Nat) {vs : List Int} {bs : List Nat} {ws : List Int} {p q : Option Nat},
      as.length = vs.length →
      chainSeg h p (as ++ bs) (vs ++ ws) q =
        (chainSeg h p as vs (bs.head?.or q) && chainSeg h (as.getLast?.or p) bs ws q) := by
  intro as
  induction as with
  | nil =>
    intro vs bs ws p q hlen
    cases vs with
    | nil => simp [chainSeg_nil, Option.none_or]
    | cons v vs => simp at hlen
  | cons a as ih =>
    intro vs bs ws p q hlen
    cases vs with
    | nil => simp at hlen
    | cons v vs =>
      rw [Bool.eq_iff_iff]
      rw [List.cons_append, List.cons_append]
      rw [Bool.and_eq_true, chainSeg_cons_iff, chainSeg_cons_iff]
      have hnext : (as ++ bs).head?.or q = as.head?.or (bs.head?.or q) := by
        rw [List.head?_append, Option.or_assoc]
      have hlast : (a :: as).getLast?.or p = as.getLast?.or (some a) :=
        getLast?_cons_or a as p
      have htail := @ih vs bs ws (some a) q (by simpa using hlen)
      constructor
      · rintro ⟨nd, h1, h2, h3, h4, h5⟩
        rw [htail, Bool.and_eq_true] at h5
        exact ⟨⟨nd, h1, h2, h3, by rw [h4, hnext], h5.1⟩, by rw [hlast]; exact h5.2⟩
      · rintro ⟨⟨nd, h1, h2, h3, h4, h5⟩, h6⟩
        refine ⟨nd, h1, h2, h3, by rw [h4, hnext], ?_⟩
        rw [htail, Bool.and_eq_true]
        exact ⟨h5, by rw [hlast] at h6; exact h6⟩

theorem nodup_last_notmem_dropLast {addrs : List Nat} {g : Nat}
    (hnd : addrs.Nodup) (hg : addrs.getLast? = some g) : g ∉ addrs.dropLast := by
  have hne : addrs ≠ [] := by
    intro he
    rw [he, List.getLast?_nil] at hg
    cases hg
  have h2 : addrs.getLast hne = g := by
    rw [List.getLast?_eq_getLast _ hne, Option.some.injEq] at hg
    exact hg
  have hdec : addrs.dropLast ++ [g] = addrs := by
    have h3 := List.dropLast_append_getLast hne
    rwa [h2] at h3
  intro hmem
  rw [← hdec] at hnd
  exact (List.disjoint_of_nodup_append hnd) hmem (by simp)

/-- Splitting a chain at its last node. -/
theorem chainSeg_snoc_decomp {h : Heap} {addrs : List Nat} {vals : List Int}
    {p q : Option Nat} {g : Nat} (hg : addrs.getLast? = some g)
    (hc : chainSeg h p addrs vals q = true) :
    ∃ w, vals.getLast? = some w ∧
      chainSeg h p addrs.dropLast vals.dropLast (some g) = true ∧
      chainSeg h (addrs.dropLast.getLast?.or p) [g] [w] q = true := by
  have hane : addrs ≠ [] := by
    intro he
    rw [he, List.getLast?_nil] at hg
    cases hg
  have hvne : vals ≠ [] := by
    intro he
    have hl := chainSeg_lengths hc
    rw [he] at hl
    simp at hl
    exact hane hl
  have hadec : addrs.dropLast ++ [g] = addrs := by
    have h1 := List.dropLast_append_getLast hane
    have h2 : addrs.getLast hane = g := by
      rw [List.getLast?_eq_getLast _ hane, Option.some.injEq] at hg
      exact hg
    rwa [h2] at h1
  have hvdec : vals.dropLast ++ [vals.getLast hvne] = vals :=
    List.dropLast_append_getLast hvne
  have hlen : addrs.dropLast.length = vals.dropLast.length := by
    rw [List.length_dropLast, List.length_dropLast, chainSeg_lengths hc]
  rw [← hadec, ← hvdec, chainSeg_append_decomp _ hlen, Bool.and_eq_true] at hc
  refine ⟨vals.getLast hvne, (List.getLast?_eq_getLast _ hvne), ?_, ?_⟩
  · have := hc.1
    simpa [Option.none_or] using this
  · exact hc.2

/-- Rebuilding a chain from its two parts (last node split off). -/
theorem chainSeg_snoc_recomp {h : Heap} {front : List Nat} {vsf : List Int}
    {p q : Option Nat} {g : Nat} {w : Int}
    (hlen : front.length = vsf.length)
    (h1 : chainSeg h p front vsf (some g) = true)
    (h2 : chainSeg h (front.getLast?.or p) [g] [w] q = true) :
    chainSeg h p (front ++ [g]) (vsf ++ [w]) q = true := by
  rw [chainSeg_append_decomp _ hlen, Bool.and_eq_true]
  constructor
  · simpa [Option.none_or] using h1
  · exact h2

/-- Re-pointing the last node's `next` (used by `append` and `concat`). -/
theorem chainSeg_retarget {h : Heap} {addrs : List Nat} {vals : List Int}
    {p q q2 : Option Nat} {g : Nat} (hg : addrs.getLast? = some g)
    (hnd : addrs.Nodup) (hc : chainSeg h p addrs vals q = true) :
    chainSeg (setNext h g q2) p addrs vals q2 = true := by
  rcases chainSeg_snoc_decomp hg hc with ⟨w, hw, hfront, hsing⟩
  have hane : addrs ≠ [] := by
    intro he
    rw [he, List.getLast?_nil] at hg
    cases hg
  have hadec : addrs.dropLast ++ [g] = addrs := by
    have h1 := List.dropLast_append_getLast hane
    have h2 : addrs.getLast hane = g := by
      rw [List.getLast?_eq_getLast _ hane, Option.some.injEq] at hg
      exact hg
    rwa [h2] at h1
  have hvne : vals ≠ [] := by
    intro he
    rw [he, List.getLast?_nil] at hw
    cases hw
  have hvdec : vals.dropLast ++ [w] = vals := by
    have h1 := List.dropLast_append_getLast hvne
    have h2 : vals.getLast hvne = w := by
      rw [List.getLast?_eq_getLast _ hvne, Option.some.injEq] at hw
      exact hw
    rwa [h2] at h1
  have hgnm : g ∉ addrs.dropLast := nodup_last_notmem_dropLast hnd hg
  have hlen : addrs.dropLast.length = vals.dropLast.length := by
    rw [List.length_dropLast, List.length_dropLast, chainSeg_lengths hc]
  rw [← hadec, ← hvdec]
  refine chainSeg_snoc_recomp hlen (chainSeg_setNext_notmem hgnm hfront) ?_
  rcases chainSeg_singleton.mp hsing with ⟨nd, hnd2, hv2, hp2, -⟩
  exact chainSeg_singleton.mpr ⟨{ nd with next := q2 },
    nodeAt_setNext_self _ hnd2, hv2, prevOK_setNext g q2 hp2, rfl⟩

/-- The value stored at the last chain address. -/
theorem chainSeg_getLast_value {h : Heap} {addrs : List Nat} {vals : List Int}
    {p q : Option Nat} {g : Nat} (hg : addrs.getLast? = some g)
    (hc : chainSeg h p addrs vals q = true) :
    ∃ nd, nodeAt h g = some nd ∧ some nd.value = vals.getLast? := by
  rcases chainSeg_snoc_decomp hg hc with ⟨w, hw, -, hsing⟩
  rcases chainSeg_singleton.mp hsing with ⟨nd, hnd, hv, -, -⟩
  exact ⟨nd, hnd, by rw [hv, hw]⟩

/-! ## Mirror: `next_back` is `next` on a heap with the link roles swapped -/

/-- Swap the roles of the two links: the mirrored `next` is what `next_back`
advances along (`prev.upgrade()`), the mirrored `prev` is the strong `next`. -/
def mirrorNode (h : Heap) (nd : Node) : Node :=
  { value := nd.value, prev := nd.next, next := upgrade h nd.prev }

def mirror (h : Heap) : Heap := h.map (Option.map (mirrorNode h))

theorem length_mirror (h : Heap) : (mirror h).length = h.length := by
  simp [mirror]

theorem nodeAt_mirror (h : Heap) (a : Nat) :
    nodeAt (mirror h) a = (nodeAt h a).map (mirrorNode h) := by
  rw [nodeAt_eq_getElem?, nodeAt_eq_getElem?, mirror, List.getElem?_map]
  cases h[a]? with
  | none => rfl
  | some o => cases o <;> rfl

theorem alive_mirror (h : Heap) (a : Nat) :
    (nodeAt (mirror h) a).isSome = (nodeAt h a).isSome := by
  rw [nodeAt_mirror]
  cases nodeAt h a <;> rfl

theorem upgrade_mirror (h : Heap) (w : Option Nat) :
    upgrade (mirror h) w = upgrade h w :=
  upgrade_eq_of_alive_eq (alive_mirror h)

theorem next_back_mirror (h : Heap) (c rc : Option Nat) :
    IterList.next_back h ⟨c, rc⟩ =
      ((IterList.next (mirror h) ⟨rc, c⟩).1,
       ⟨(IterList.next (mirror h) ⟨rc, c⟩).2.1.revcursor,
        (IterList.next (mirror h) ⟨rc, c⟩).2.1.cursor⟩, h) := by
  cases rc with
  | none => cases c <;> rfl
  | some a =>
    cases hx : nodeAt h a with
    | none =>
      cases c <;>
        simp [IterList.next, IterList.next_back, nodeAt_mirror, hx]
    | some nd =>
      cases c <;>
        simp [IterList.next, IterList.next_back, nodeAt_mirror, hx, mirrorNode]

theorem collectFwd_succ_none {fuel : Nat} {h : Heap} {it x : IterList} {h2 : Heap}
    (hs : IterList.next h it = (none, x, h2)) :
    collectFwd (fuel + 1) h it = ([], h2) := by
  simp only [collectFwd, hs]

theorem collectFwd_succ_some {fuel : Nat} {h : Heap} {it it2 : IterList} {v : Int}
    {h2 : Heap} (hs : IterList.next h it = (some v, it2, h2)) :
    collectFwd (fuel + 1) h it =
      (v :: (collectFwd fuel h2 it2).1, (collectFwd fuel h2 it2).2) := by
  simp only [collectFwd, hs]

theorem collectBwd_succ_none {fuel : Nat} {h : Heap} {it x : IterList} {h2 : Heap}
    (hs : IterList.next_back h it = (none, x, h2)) :
    collectBwd (fuel + 1) h it = ([], h2) := by
  simp only [collectBwd, hs]

theorem collectBwd_succ_some {fuel : Nat} {h : Heap} {it it2 : IterList} {v : Int}
    {h2 : Heap} (hs : IterList.next_back h it = (some v, it2, h2)) :
    collectBwd (fuel + 1) h it =
      (v :: (collectBwd fuel h2 it2).1, (collectBwd fuel h2 it2).2) := by
  simp only [collectBwd, hs]

theorem next_heap (h : Heap) (it : IterList) : (IterList.next h it).2.2 = h := rfl

theorem next_back_heap (h : Heap) (it : IterList) :
    (IterList.next_back h it).2.2 = h := rfl

theorem collectFwd_heap (h : Heap) :
    ∀ (fuel : Nat) (it : IterList), (collectFwd fuel h it).2 = h := by
  intro fuel
  induction fuel with
  | zero => intro it; rfl
  | succ f ih =>
    intro it
    rcases hs : IterList.next h it with ⟨r, it2, h2⟩
    have hh : h2 = h := by rw [← next_heap h it, hs]
    subst hh
    cases r with
    | none => rw [collectFwd_succ_none hs]
    | some v => rw [collectFwd_succ_some hs]; exact ih it2

theorem collectBwd_heap (h : Heap) :
    ∀ (fuel : Nat) (it : IterList), (collectBwd fuel h it).2 = h := by
  intro fuel
  induction fuel with
  | zero => intro it; rfl
  | succ f ih =>
    intro it
    rcases hs : IterList.next_back h it with ⟨r, it2, h2⟩
    have hh : h2 = h := by rw [← next_back_heap h it, hs]
    subst hh
    cases r with
    | none => rw [collectBwd_succ_none hs]
    | some v => rw [collectBwd_succ_some hs]; exact ih it2

theorem collectBwd_mirror (h : Heap) :
    ∀ (fuel : Nat) (it : IterList),
      (collectBwd fuel h it).1 =
        (collectFwd fuel (mirror h) ⟨it.revcursor, it.cursor⟩).1 := by
  intro fuel
  induction fuel with
  | zero => intro it; rfl
  | succ f ih =>
    intro it
    obtain ⟨c, rc⟩ := it
    rcases hY : IterList.next (mirror h) ⟨rc, c⟩ with ⟨r, itF, hF⟩
    have hFm : hF = mirror h := by rw [← next_heap (mirror h) ⟨rc, c⟩, hY]
    subst hFm
    have hb : IterList.next_back h ⟨c, rc⟩ = (r, ⟨itF.revcursor, itF.cursor⟩, h) := by
      rw [next_back_mirror h c rc, hY]
    cases r with
    | none =>
      rw [collectBwd_succ_none hb, collectFwd_succ_none hY]
    | some v =>
      rw [collectBwd_succ_some hb, collectFwd_succ_some hY]
      have := ih ⟨itF.revcursor, itF.cursor⟩
      simpa using this

/-! ## Traversing a chain -/

theorem collectFwd_chain {h : Heap} :
    ∀ (addrs : List Nat) (vals : List Int) (p : Option Nat) (fuel : Nat),
      chainSeg h p addrs vals none = true → addrs.Nodup → addrs.length < fuel →
      (collectFwd fuel h ⟨addrs.head?, addrs.getLast?⟩).1 = vals := by
  intro addrs
  induction addrs with
  | nil =>
    intro vals p fuel hc _ _
    cases vals with
    | nil =>
      cases fuel with
      | zero => rfl
      | succ f =>
        simp only [List.head?_nil, List.getLast?_nil]
        rw [@collectFwd_succ_none f h ⟨none, none⟩ ⟨none, none⟩ h rfl]
    | cons v vs => rw [chainSeg_nil_cons] at hc; cases hc
  | cons a as ih =>
    intro vals p fuel hc hnd hf
    cases vals with
    | nil => rw [chainSeg_cons_nil] at hc; cases hc
    | cons v vs =>
      rcases chainSeg_cons_iff.mp hc with ⟨nd, hnd2, hv, _, hnx, htl⟩
      cases fuel with
      | zero => omega
      | succ f =>
        cases as with
        | nil =>
          have hs : IterList.next h ⟨some a, some a⟩ =
              (some nd.value, ⟨none, some a⟩, h) := by
            simp [IterList.next, hnd2]
          simp only [List.head?_cons, List.getLast?_singleton]
          rw [collectFwd_succ_some hs]
          have hrest : (collectFwd f h ⟨none, some a⟩).1 = [] := by
            cases f with
            | zero => rfl
            | succ f2 => rw [@collectFwd_succ_none f2 h ⟨none, some a⟩ ⟨none, some a⟩ h rfl]
          cases vs with
          | nil => simp [hrest, hv]
          | cons w ws => rw [chainSeg_nil_cons] at htl; cases htl
        | cons b bs =>
          have hbne : (b :: bs) ≠ ([] : List Nat) := by simp
          have hglast : (a :: b :: bs).getLast? = (b :: bs).getLast? :=
            List.getLast?_cons_cons
          rcases Option.isSome_iff_exists.mp (List.getLast?_isSome.mpr hbne) with ⟨g, hg⟩
          have hgl : (b :: bs).getLast hbne = g := by
            rw [List.getLast?_eq_getLast _ hbne, Option.some.injEq] at hg
            exact hg
          have hgmem : g ∈ b :: bs := hgl ▸ List.getLast_mem hbne
          have hanotin : a ∉ b :: bs := (List.nodup_cons.mp hnd).1
          have hga : (g == a) = false := by
            apply beq_eq_false_iff_ne.mpr
            intro he
            exact hanotin (he ▸ hgmem)
          have hs : IterList.next h ⟨some a, (a :: b :: bs).getLast?⟩ =
              (some nd.value, ⟨nd.next, (a :: b :: bs).getLast?⟩, h) := by
            rw [hglast, hg]
            simp [IterList.next, hnd2, hga]
          simp only [List.head?_cons]
          rw [collectFwd_succ_some hs]
          have hnx2 : nd.next = some b := by
            simpa [Option.or] using hnx
          have ih2 := ih vs (some a) f htl (List.nodup_cons.mp hnd).2
            (by simp at hf ⊢; omega)
          rw [hv]
          simp only [hnx2, hglast]
          simpa using ih2

theorem chainSeg_mirror_aux {h : Heap} :
    ∀ (as : List Nat) (vs : List Int) (pp : Nat),
      (nodeAt h pp).isSome = true →
      chainSeg h (some pp) as vs none = true →
      chainSeg (mirror h) none as.reverse vs.reverse (some pp) = true := by
  intro as
  induction as with
  | nil =>
    intro vs pp _ hc
    cases vs with
    | nil => exact chainSeg_nil _ _ _
    | cons v vs => rw [chainSeg_nil_cons] at hc; cases hc
  | cons a as ih =>
    intro vs pp hpp hc
    cases vs with
    | nil => rw [chainSeg_cons_nil] at hc; cases hc
    | cons v vs =>
      rcases chainSeg_cons_iff.mp hc with ⟨nd, hnd, hv, hp, hnx, htl⟩
      have hpv : nd.prev = some pp := hp
      rw [List.reverse_cons, List.reverse_cons]
      have hlen : as.reverse.length = vs.reverse.length := by
        simpa using chainSeg_lengths htl
      apply chainSeg_snoc_recomp hlen
      · exact ih vs a (by simp [hnd]) htl
      · have hparam : as.reverse.getLast?.or none = as.head? := by
          rw [List.getLast?_reverse, Option.or_none]
        rw [hparam]
        apply chainSeg_singleton.mpr
        refine ⟨mirrorNode h nd, by rw [nodeAt_mirror, hnd]; rfl, hv, ?_, ?_⟩
        · cases hhd : as.head? with
          | none =>
            have hnone : nd.next = none := by rw [hnx, hhd]; rfl
            show deadRef (mirror h) (mirrorNode h nd).prev = true
            simp [mirrorNode, hnone, deadRef]
          | some b =>
            show (mirrorNode h nd).prev = some b
            show nd.next = some b
            rw [hnx, hhd]
            rfl
        · show (mirrorNode h nd).next = some pp
          show upgrade h nd.prev = some pp
          rw [hpv]
          exact upgrade_some_of_alive hpp

theorem chainB_mirror {h : Heap} {addrs : List Nat} {vals : List Int}
    (hc : chainB h addrs vals = true) :
    chainB (mirror h) addrs.reverse vals.reverse = true := by
  cases addrs with
  | nil =>
    cases vals with
    | nil => exact chainSeg_nil _ _ _
    | cons v vs => rw [chainB, chainSeg_nil_cons] at hc; cases hc
  | cons a as =>
    cases vals with
    | nil => rw [chainB, chainSeg_cons_nil] at hc; cases hc
    | cons v vs =>
      rcases chainSeg_cons_iff.mp hc with ⟨nd, hnd, hv, hp, hnx, htl⟩
      have hpd : deadRef h nd.prev = true := hp
      rw [chainB, List.reverse_cons, List.reverse_cons]
      have hlen : as.reverse.length = vs.reverse.length := by
        simpa using chainSeg_lengths htl
      apply chainSeg_snoc_recomp hlen
      · exact chainSeg_mirror_aux as vs a (by simp [hnd]) htl
      · have hparam : as.reverse.getLast?.or none = as.head? := by
          rw [List.getLast?_reverse, Option.or_none]
        rw [hparam]
        apply chainSeg_singleton.mpr
        refine ⟨mirrorNode h nd, by rw [nodeAt_mirror, hnd]; rfl, hv, ?_, ?_⟩
        · cases hhd : as.head? with
          | none =>
            have hnone : nd.next = none := by rw [hnx, hhd]; rfl
            show deadRef (mirror h) (mirrorNode h nd).prev = true
            simp [mirrorNode, hnone, deadRef]
          | some b =>
            show (mirrorNode h nd).prev = some b
            show nd.next = some b
            rw [hnx, hhd]
            rfl
        · show (mirrorNode h nd).next = none
          show upgrade h nd.prev = none
          exact deadRef_upgrade hpd

theorem to_vec_of_Inv {h : Heap} {l : LList} {addrs : List Nat} {vals : List Int}
    (hInv : Inv h l addrs vals) (hlen : addrs.length ≤ h.length) :
    (to_vec h l).1 = vals := by
  obtain ⟨hnd, hc, hfirst, htail, -⟩ := hInv
  unfold to_vec iter
  rw [hfirst, htail]
  exact collectFwd_chain addrs vals none (h.length + 1) hc hnd (by omega)

theorem to_vec_rev_of_Inv {h : Heap} {l : LList} {addrs : List Nat} {vals : List Int}
    (hInv : Inv h l addrs vals) (hlen : addrs.length ≤ h.length) :
    (to_vec_rev h l).1 = vals.reverse := by
  obtain ⟨hnd, hc, hfirst, htail, -⟩ := hInv
  unfold to_vec_rev iter
  rw [hfirst, htail, collectBwd_mirror]
  show (collectFwd (h.length + 1) (mirror h) ⟨addrs.getLast?, addrs.head?⟩).1 = _
  have hcall := collectFwd_chain addrs.reverse vals.reverse none (h.length + 1)
    (chainB_mirror hc) (List.nodup_reverse.mpr hnd) (by simp; omega)
  rw [List.head?_reverse, List.getLast?_reverse] at hcall
  exact hcall

/-! ## The heap built by `from_vec` -/

theorem linkPass_length (h1 : Heap) (base : Nat) :
    ∀ k, (linkPass h1 base k).length = h1.length := by
  intro k
  induction k with
  | zero => rfl
  | succ k ih =>
    simp only [linkPass, linkPair, length_setPrev, length_setNext]
    exact ih

theorem linkPass_at_lower {h1 : Heap} {base : Nat} :
    ∀ (k : Nat) (a : Nat), a < base → nodeAt (linkPass h1 base k) a = nodeAt h1 a := by
  intro k
  induction k with
  | zero => intro a _; rfl
  | succ k ih =>
    intro a ha
    simp only [linkPass, linkPair]
    rw [nodeAt_setPrev_ne _ (by omega), nodeAt_setNext_ne _ (by omega), ih a ha]

/-- After `k` iterations of the linking loop, node `i` has its `next` set iff
`i < k` and its `prev` set iff `1 ≤ i ≤ k`. -/
theorem linkPass_at {h1 : Heap} {base n : Nat} {val : Nat → Int}
    (hbase : ∀ i, i < n →
      nodeAt h1 (base + i) = some { value := val i, prev := none, next := none }) :
    ∀ k, k ≤ n - 1 → ∀ i, i < n →
      nodeAt (linkPass h1 base k) (base + i) =
        some { value := val i,
               prev := if 1 ≤ i ∧ i ≤ k then some (base + i - 1) else none,
               next := if i < k then some (base + i + 1) else none } := by
  intro k
  induction k with
  | zero =>
    intro _ i hi
    rw [show linkPass h1 base 0 = h1 from rfl, hbase i hi]
    have c1 : ¬(1 ≤ i ∧ i ≤ 0) := by omega
    have c2 : ¬(i < 0) := by omega
    rw [if_neg c1, if_neg c2]
  | succ k ih =>
    intro hk i hi
    have hk1 : k ≤ n - 1 := by omega
    have hkn : k + 1 < n := by omega
    have hkn0 : k < n := by omega
    simp only [linkPass, linkPair]
    rcases Nat.lt_trichotomy i k with hik | heq | hik
    · -- node untouched in this iteration
      have hne1 : base + k ≠ base + i := by omega
      have hne2 : base + k + 1 ≠ base + i := by omega
      rw [nodeAt_setPrev_ne _ hne2, nodeAt_setNext_ne _ hne1, ih hk1 i hi]
      have c1 : (1 ≤ i ∧ i ≤ k) ↔ (1 ≤ i ∧ i ≤ k + 1) := by omega
      have c2 : (i < k) ↔ (i < k + 1) := by omega
      rw [if_congr c1 rfl rfl, if_congr c2 rfl rfl]
    · -- i = k: `next` gets set now, `prev` as before
      rw [heq]
      have hAtk := ih hk1 k hkn0
      rw [if_neg (show ¬ k < k by omega)] at hAtk
      have hsn := nodeAt_setNext_self (some (base + k + 1)) hAtk
      have hne2 : base + k + 1 ≠ base + k := by omega
      rw [nodeAt_setPrev_ne _ hne2, hsn]
      rw [if_pos (show k < k + 1 by omega)]
      have c1 : (1 ≤ k ∧ k ≤ k + 1) ↔ (1 ≤ k ∧ k ≤ k) := by omega
      rw [if_congr c1 rfl rfl]
    · -- i = k + 1 (or beyond): only i = k+1 is touched, by the `prev` write
      rcases Nat.eq_or_lt_of_le hik with heq2 | hik2
      · have hidx : base + i = base + k + 1 := by omega
        have hAtk1 := ih hk1 i hi
        rw [if_neg (show ¬(1 ≤ i ∧ i ≤ k) by omega),
          if_neg (show ¬ i < k by omega), hidx] at hAtk1
        have hne1 : base + k ≠ base + k + 1 := by omega
        have hsn : nodeAt (setNext (linkPass h1 base k) (base + k)
            (some (base + k + 1))) (base + k + 1) =
            some { value := val i, prev := none, next := none } := by
          rw [nodeAt_setNext_ne _ hne1]
          exact hAtk1
        have hsp := nodeAt_setPrev_self (some (base + k)) hsn
        rw [hidx, hsp, if_pos (show 1 ≤ i ∧ i ≤ k + 1 by omega),
          if_neg (show ¬ i < k + 1 by omega)]
        have he : base + k + 1 - 1 = base + k := by omega
        rw [he]
      · have hne1 : base + k ≠ base + i := by omega
        have hne2 : base + k + 1 ≠ base + i := by omega
        rw [nodeAt_setPrev_ne _ hne2, nodeAt_setNext_ne _ hne1, ih hk1 i hi]
        have c1 : (1 ≤ i ∧ i ≤ k) ↔ (1 ≤ i ∧ i ≤ k + 1) := by omega
        have c2 : (i < k) ↔ (i < k + 1) := by omega
        rw [if_congr c1 rfl rfl, if_congr c2 rfl rfl]

/-- Chain shape from the pointwise description of the linked heap. -/
theorem chain_of_pointwise {H : Heap} {base n : Nat} {v : List Int}
    (hn : v.length = n)
    (hfin : ∀ i, i < n →
      nodeAt H (base + i) =
        some { value := v.getD i 0,
               prev := if 1 ≤ i ∧ i ≤ n - 1 then some (base + i - 1) else none,
               next := if i < n - 1 then some (base + i + 1) else none }) :
    ∀ m j, j + m = n →
      chainSeg H (if j = 0 then none else some (base + j - 1))
        (List.range' (base + j) m) (v.drop j) none = true := by
  intro m
  induction m with
  | zero =>
    intro j hj
    rw [List.drop_eq_nil_of_le (by omega), List.range'_zero]
    exact chainSeg_nil _ _ _
  | succ m ih =>
    intro j hj
    have hjn : j < n := by omega
    have hjv : j < v.length := by omega
    have hdrop : v.drop j = v[j] :: v.drop (j + 1) := List.drop_eq_getElem_cons hjv
    have hvj : v.getD j 0 = v[j] := List.getD_eq_getElem v 0 hjv
    rw [hdrop, List.range'_succ]
    apply chainSeg_cons_iff.mpr
    refine ⟨_, hfin j hjn, ?_, ?_, ?_, ?_⟩
    · exact hvj
    · by_cases hj0 : j = 0
      · subst hj0
        rw [if_pos rfl]
        show deadRef H (if 1 ≤ 0 ∧ 0 ≤ n - 1 then some (base + 0 - 1) else none) = true
        rw [if_neg (by omega)]
        rfl
      · rw [if_neg hj0]
        show (if 1 ≤ j ∧ j ≤ n - 1 then some (base + j - 1) else none) = some (base + j - 1)
        rw [if_pos (by omega)]
    · show (if j < n - 1 then some (base + j + 1) else none) =
        (List.range' (base + j + 1) m).head?.or none
      cases m with
      | zero =>
        rw [List.range'_zero, if_neg (by omega)]
        rfl
      | succ m2 =>
        rw [List.range'_succ, if_pos (by omega)]
        rfl
    · have hrec := ih (j + 1) (by omega)
      rw [if_neg (by omega)] at hrec
      have he1 : base + (j + 1) - 1 = base + j := by omega
      have he2 : base + (j + 1) = base + j + 1 := by omega
      rw [he1, he2] at hrec
      exact hrec

theorem from_vec_of_ne {h : Heap} {v : List Int} (hv : v ≠ []) :
    from_vec h v =
      (linkPass (h ++ v.map (fun n => some { value := n, prev := none, next := none }))
        h.length (v.length - 1),
       { first := some h.length, tail := some (h.length + (v.length - 1)) }) := by
  rw [from_vec, if_neg (by simp [hv])]

theorem from_vec_h1_at {h : Heap} {v : List Int} :
    ∀ i, i < v.length →
      nodeAt (h ++ v.map (fun n => some { value := n, prev := none, next := none }))
        (h.length + i) =
      some { value := v.getD i 0, prev := none, next := none } := by
  intro i hi
  rw [nodeAt_append_right, nodeAt_eq_getElem?, List.getElem?_map,
    List.getElem?_eq_getElem hi, List.getD_eq_getElem v 0 hi]
  rfl

theorem from_vec_length (h : Heap) (v : List Int) :
    (from_vec h v).1.length = h.length + v.length := by
  by_cases hv : v = []
  · subst hv
    simp [from_vec]
  · rw [from_vec_of_ne hv]
    simp only [linkPass_length, List.length_append, List.length_map]

theorem from_vec_at_lower {h : Heap} {v : List Int} {a : Nat} (ha : a < h.length) :
    nodeAt (from_vec h v).1 a = nodeAt h a := by
  by_cases hv : v = []
  · subst hv
    simp [from_vec]
  · rw [from_vec_of_ne hv]
    show nodeAt (linkPass _ h.length (v.length - 1)) a = nodeAt h a
    rw [linkPass_at_lower _ a ha, nodeAt_append_left ha]

/-- The heap and handles produced by `from_vec` satisfy the invariant, with
the chain at the freshly allocated addresses. -/
theorem Inv_from_vec (h : Heap) (v : List Int) :
    Inv (from_vec h v).1 (from_vec h v).2 (List.range' h.length v.length) v := by
  by_cases hv : v = []
  · subst hv
    simp only [from_vec, List.isEmpty_nil, if_true, List.length_nil, List.range'_zero]
    exact ⟨List.nodup_nil, chainSeg_nil _ _ _, rfl, rfl, rfl⟩
  · have hn : 1 ≤ v.length := List.length_pos.mpr hv
    rw [from_vec_of_ne hv]
    set base := h.length with hbase
    set n := v.length with hnv
    set h1 := h ++ v.map (fun n => some { value := n, prev := none, next := none })
      with hh1
    set H := linkPass h1 base (n - 1) with hH
    have hfin : ∀ i, i < n →
        nodeAt H (base + i) =
          some { value := v.getD i 0,
                 prev := if 1 ≤ i ∧ i ≤ n - 1 then some (base + i - 1) else none,
                 next := if i < n - 1 then some (base + i + 1) else none } := by
      intro i hi
      exact @linkPass_at h1 base n (fun i => v.getD i 0)
        (fun j hj => from_vec_h1_at j hj) (n - 1) le_rfl i hi
    have hchain : chainB H (List.range' base n) v = true := by
      have := chain_of_pointwise rfl hfin n 0 (by omega)
      simpa [chainB] using this
    have hlenH : H.length = base + n := by
      rw [hH, linkPass_length, hh1]
      simp [hbase, hnv]
    have halive : (nodeAt H (base + (n - 1))).isSome = true := by
      rw [hfin (n - 1) (by omega)]
      rfl
    refine ⟨List.nodup_range' _ _, hchain, ?_, ?_, ?_⟩
    · show some base = (List.range' base n).head?
      have : n = (n - 1) + 1 := by omega
      rw [this, List.range'_succ]
      rfl
    · show upgrade H (some (base + (n - 1))) = (List.range' base n).getLast?
      rw [upgrade_some_of_alive halive]
      have h2 : n = (n - 1) + 1 := by omega
      rw [h2, List.range'_concat]
      rw [List.getLast?_concat]
      simp
    · show boundedW H (some (base + (n - 1))) = true
      simp only [boundedW, hlenH]
      simp
      omega

/-! ## Invariants survive heap growth that leaves existing slots alone -/

theorem prevOK_mono {h h2 : Heap} {p : Option Nat} {nd : Node}
    (hle : h.length ≤ h2.length)
    (hpt : ∀ a, a < h.length → nodeAt h2 a = nodeAt h a)
    (hp : prevOK h p nd) : prevOK h2 p nd := by
  cases p with
  | some pp => exact hp
  | none =>
    show deadRef h2 nd.prev = true
    have hd : deadRef h nd.prev = true := hp
    cases hw : nd.prev with
    | none => rfl
    | some b =>
      rw [hw] at hd
      simp only [deadRef, Bool.and_eq_true, decide_eq_true_eq,
        Option.isNone_iff_eq_none] at hd ⊢
      exact ⟨by omega, by rw [hpt b hd.1]; exact hd.2⟩

theorem chainSeg_mono {h h2 : Heap} (hle : h.length ≤ h2.length)
    (hpt : ∀ a, a < h.length → nodeAt h2 a = nodeAt h a) :
    ∀ {addrs : List Nat} {vals : List Int} {p q : Option Nat},
      chainSeg h p addrs vals q = true → chainSeg h2 p addrs vals q = true := by
  intro addrs
  induction addrs with
  | nil =>
    intro vals p q hc
    cases vals with
    | nil => rfl
    | cons v vs => rw [chainSeg_nil_cons] at hc; cases hc
  | cons a as ih =>
    intro vals p q hc
    cases vals with
    | nil => rw [chainSeg_cons_nil] at hc; cases hc
    | cons v vs =>
      rcases chainSeg_cons_iff.mp hc with ⟨nd, hnd, hval, hp, hnx, htl⟩
      exact chainSeg_cons_iff.mpr ⟨nd,
        by rw [hpt a (nodeAt_lt_length hnd)]; exact hnd,
        hval, prevOK_mono hle hpt hp, hnx, ih htl⟩

theorem Inv_mono {h h2 : Heap} {l : LList} {addrs : List Nat} {vals : List Int}
    (hle : h.length ≤ h2.length)
    (hpt : ∀ a, a < h.length → nodeAt h2 a = nodeAt h a)
    (hInv : Inv h l addrs vals) : Inv h2 l addrs vals := by
  obtain ⟨hnd, hc, hfirst, htail, hbdd⟩ := hInv
  refine ⟨hnd, chainSeg_mono hle hpt hc, hfirst, ?_, ?_⟩
  · cases hw : l.tail with
    | none => rw [hw] at htail; rw [← htail]; rfl
    | some b =>
      rw [hw] at htail hbdd
      simp only [boundedW, decide_eq_true_eq] at hbdd
      have : (nodeAt h2 b).isSome = (nodeAt h b).isSome := by rw [hpt b hbdd]
      rw [← htail]
      simp [upgrade, this]
  · cases hw : l.tail with
    | none => rfl
    | some b =>
      rw [hw] at hbdd
      simp only [boundedW, decide_eq_true_eq] at hbdd ⊢
      omega

/-! ## Preservation of the invariant by each operation -/

theorem upgrade_eq_some {h : Heap} {w : Option Nat} {g : Nat}
    (hu : upgrade h w = some g) : w = some g ∧ (nodeAt h g).isSome = true := by
  cases w with
  | none => cases hu
  | some b =>
    simp only [upgrade] at hu
    by_cases hb : (nodeAt h b).isSome = true
    · rw [if_pos hb] at hu
      cases hu
      exact ⟨rfl, hb⟩
    · rw [if_neg hb] at hu
      cases hu

theorem upgrade_append_bounded {h h2 : Heap} {w : Option Nat}
    (hb : boundedW h w = true) : upgrade (h ++ h2) w = upgrade h w := by
  cases w with
  | none => rfl
  | some b =>
    simp only [boundedW, decide_eq_true_eq] at hb
    simp only [upgrade, nodeAt_append_left hb]

theorem exists_getLast? {α : Type} {l : List α} (hne : l ≠ []) :
    ∃ g, l.getLast? = some g :=
  ⟨l.getLast hne, List.getLast?_eq_getLast l hne⟩

theorem mem_of_getLast? {α : Type} {l : List α} {g : α} (hg : l.getLast? = some g) :
    g ∈ l := by
  have hne : l ≠ [] := by
    intro he
    rw [he, List.getLast?_nil] at hg
    cases hg
  have h2 : l.getLast hne = g := by
    rw [List.getLast?_eq_getLast _ hne, Option.some.injEq] at hg
    exact hg
  exact h2 ▸ List.getLast_mem hne

theorem chainSeg_vals_nil {h : Heap} {vals : List Int} {p q : Option Nat}
    (hc : chainSeg h p [] vals q = true) : vals = [] := by
  cases vals with
  | nil => rfl
  | cons v vs => rw [chainSeg_nil_cons] at hc; cases hc

theorem Inv_new (h : Heap) : Inv h LList.new [] [] :=
  ⟨List.nodup_nil, chainSeg_nil _ _ _, rfl, rfl, rfl⟩

theorem Inv_append {h : Heap} {l : LList} {addrs : List Nat} {vals : List Int}
    (hInv : Inv h l addrs vals) (x : Int) :
    Inv (append h l x).1 (append h l x).2 (addrs ++ [h.length]) (vals ++ [x]) := by
  obtain ⟨hnd, hc, hfirst, htail, hbdd⟩ := hInv
  by_cases hae : addrs = []
  · subst hae
    have hve : vals = [] := chainSeg_vals_nil hc
    subst hve
    rw [List.getLast?_nil] at htail
    simp only [append, htail, List.nil_append]
    have hnode : nodeAt (h ++ [some { value := x, prev := none, next := none }])
        h.length = some { value := x, prev := none, next := none } := by
      have := @nodeAt_append_right h [some { value := x, prev := none, next := none }] 0
      simpa using this
    refine ⟨by simp, ?_, rfl, ?_, ?_⟩
    · exact chainSeg_singleton.mpr ⟨_, hnode, rfl, rfl, rfl⟩
    · rw [upgrade_some_of_alive (by simp [hnode])]
      rfl
    · simp [boundedW]
  · obtain ⟨g, hg⟩ := exists_getLast? hae
    rw [hg] at htail
    simp only [append, htail]
    have hgmem : g ∈ addrs := mem_of_getLast? hg
    have hglt : g < h.length := chainSeg_lt_length hc g hgmem
    have hAnm : h.length ∉ addrs := fun hm => by
      have := chainSeg_lt_length hc _ hm
      omega
    have hnodeA1 : nodeAt (h ++ [some { value := x, prev := some g, next := none }])
        h.length = some { value := x, prev := some g, next := none } := by
      have := @nodeAt_append_right h [some { value := x, prev := some g, next := none }] 0
      simpa using this
    have hnodeA : nodeAt (setNext
        (h ++ [some { value := x, prev := some g, next := none }]) g (some h.length))
        h.length = some { value := x, prev := some g, next := none } := by
      rw [nodeAt_setNext_ne _ (by omega), hnodeA1]
    have hc1 : chainSeg (h ++ [some { value := x, prev := some g, next := none }])
        none addrs vals none = true := chainSeg_append_heap hc
    have hc2 : chainSeg (setNext
        (h ++ [some { value := x, prev := some g, next := none }]) g (some h.length))
        none addrs vals (some h.length) = true := chainSeg_retarget hg hnd hc1
    have hchain : chainB (setNext
        (h ++ [some { value := x, prev := some g, next := none }]) g (some h.length))
        (addrs ++ [h.length]) (vals ++ [x]) = true := by
      apply chainSeg_snoc_recomp (chainSeg_lengths hc) hc2
      rw [hg]
      exact chainSeg_singleton.mpr ⟨_, hnodeA, rfl, rfl, rfl⟩
    refine ⟨?_, hchain, ?_, ?_, ?_⟩
    · rw [List.nodup_append]
      exact ⟨hnd, by simp, fun a ha hb => by
        simp only [List.mem_singleton] at hb
        exact hAnm (hb ▸ ha)⟩
    · show l.first = (addrs ++ [h.length]).head?
      rw [hfirst, List.head?_append,
        Option.or_of_isSome (by rw [List.head?_isSome]; exact hae)]
    · show upgrade _ (some h.length) = (addrs ++ [h.length]).getLast?
      rw [upgrade_some_of_alive (by simp [hnodeA]), List.getLast?_concat]
    · show boundedW _ (some h.length) = true
      simp only [boundedW, length_setNext, List.length_append, List.length_singleton,
        decide_eq_true_eq]
      omega

theorem Inv_insert_first {h : Heap} {l : LList} {addrs : List Nat} {vals : List Int}
    (hInv : Inv h l addrs vals) (x : Int) :
    Inv (insert_first h l x).1 (insert_first h l x).2
      (h.length :: addrs) (x :: vals) := by
  obtain ⟨hnd, hc, hfirst, htail, hbdd⟩ := hInv
  cases addrs with
  | nil =>
    have hve : vals = [] := chainSeg_vals_nil hc
    subst hve
    have hf : l.first = none := by rw [hfirst]; rfl
    simp only [insert_first, hf]
    have hnode : nodeAt (h ++ [some { value := x, prev := none, next := none }])
        h.length = some { value := x, prev := none, next := none } := by
      have := @nodeAt_append_right h [some { value := x, prev := none, next := none }] 0
      simpa using this
    refine ⟨by simp, ?_, rfl, ?_, ?_⟩
    · exact chainSeg_singleton.mpr ⟨_, hnode, rfl, rfl, rfl⟩
    · rw [upgrade_some_of_alive (by simp [hnode])]
      rfl
    · simp [boundedW]
  | cons a0 rest =>
    cases vals with
    | nil => rw [chainB, chainSeg_cons_nil] at hc; cases hc
    | cons v0 vrest =>
      have hf : l.first = some a0 := by rw [hfirst]; rfl
      simp only [insert_first, hf]
      rcases chainSeg_cons_iff.mp hc with ⟨nd0, hnd0, hv0, hp0, hnx0, htl0⟩
      have ha0lt : a0 < h.length := nodeAt_lt_length hnd0
      have ha0rest : a0 ∉ rest := (List.nodup_cons.mp hnd).1
      have hAnm : h.length ∉ a0 :: rest := fun hm => by
        have := chainSeg_lt_length hc _ hm
        omega
      have hnodeA1 : nodeAt (h ++ [some { value := x, prev := none, next := some a0 }])
          h.length = some { value := x, prev := none, next := some a0 } := by
        have := @nodeAt_append_right h [some { value := x, prev := none, next := some a0 }] 0
        simpa using this
      have hnodeA : nodeAt (setPrev
          (h ++ [some { value := x, prev := none, next := some a0 }]) a0 (some h.length))
          h.length = some { value := x, prev := none, next := some a0 } := by
        rw [nodeAt_setPrev_ne _ (by omega), hnodeA1]
      have hnode01 : nodeAt (h ++ [some { value := x, prev := none, next := some a0 }])
          a0 = some nd0 := by
        rw [nodeAt_append_left ha0lt]
        exact hnd0
      have hnode0 : nodeAt (setPrev
          (h ++ [some { value := x, prev := none, next := some a0 }]) a0 (some h.length))
          a0 = some { nd0 with prev := some h.length } :=
        nodeAt_setPrev_self _ hnode01
      have hchain : chainB (setPrev
          (h ++ [some { value := x, prev := none, next := some a0 }]) a0 (some h.length))
          (h.length :: a0 :: rest) (x :: v0 :: vrest) = true := by
        apply chainSeg_cons_iff.mpr
        refine ⟨_, hnodeA, rfl, rfl, by simp, ?_⟩
        apply chainSeg_cons_iff.mpr
        refine ⟨_, hnode0, hv0, rfl, hnx0, ?_⟩
        exact chainSeg_setPrev_notmem ha0rest (chainSeg_append_heap htl0)
      refine ⟨?_, hchain, rfl, ?_, ?_⟩
      · exact List.nodup_cons.mpr ⟨hAnm, hnd⟩
      · show upgrade _ l.tail = (h.length :: a0 :: rest).getLast?
        rw [List.getLast?_cons_cons]
        rw [upgrade_setPrev, upgrade_append_bounded hbdd]
        exact htail
      · show boundedW _ l.tail = true
        cases hw : l.tail with
        | none => rfl
        | some b =>
          rw [hw] at hbdd
          simp only [boundedW, decide_eq_true_eq, length_setPrev,
            List.length_append] at hbdd ⊢
          omega

theorem pop_first_empty {h : Heap} {l : LList} (hInv : Inv h l [] []) :
    pop_first h l = (h, l, none) := by
  obtain ⟨-, -, hfirst, -, -⟩ := hInv
  have hf : l.first = none := by rw [hfirst]; rfl
  simp [pop_first, hf]

theorem pop_tail_empty {h : Heap} {l : LList} (hInv : Inv h l [] []) :
    pop_tail h l = (h, l, none) := by
  obtain ⟨-, -, -, htail, -⟩ := hInv
  have ht : upgrade h l.tail = none := by rw [htail]; rfl
  simp [pop_tail, ht]

theorem Inv_pop_first {h : Heap} {l : LList} {a : Nat} {as : List Nat} {v : Int}
    {vs : List Int} (hInv : Inv h l (a :: as) (v :: vs)) :
    (pop_first h l).2.2 = some v ∧
      Inv (pop_first h l).1 (pop_first h l).2.1 as vs := by
  obtain ⟨hnd, hc, hfirst, htail, hbdd⟩ := hInv
  rcases chainSeg_cons_iff.mp hc with ⟨nd, hnd0, hv, hp, hnx, htl⟩
  have hfa : l.first = some a := by rw [hfirst]; rfl
  have halt : a < h.length := nodeAt_lt_length hnd0
  have hanotin : a ∉ as := (List.nodup_cons.mp hnd).1
  have hnx' : nd.next = as.head? := by rw [hnx, Option.or_none]
  constructor
  · simp only [pop_first, hfa, hnd0]
    rw [hv]
  · simp only [pop_first, hfa, hnd0]
    have hfree_at : nodeAt (freeNode (setNext h a none) a) a = none := by
      apply nodeAt_freeNode_self
      rw [length_setNext]
      exact halt
    have hchain2 : chainSeg (setNext h a none) (some a) as vs none = true :=
      chainSeg_setNext_notmem hanotin htl
    have hchain3 : chainSeg (freeNode (setNext h a none) a) (some a) as vs none = true :=
      chainSeg_freeNode_notmem hanotin hchain2
    cases as with
    | nil =>
      have hvs : vs = [] := chainSeg_vals_nil htl
      subst hvs
      have hnone : nd.next = none := by rw [hnx']; rfl
      refine ⟨List.nodup_nil, chainSeg_nil _ _ _, ?_, ?_, ?_⟩
      · show nd.next = ([] : List Nat).head?
        rw [hnone]
        rfl
      · show upgrade _ (if nd.next.isNone then none else l.tail) = ([] : List Nat).getLast?
        rw [hnone]
        rfl
      · show boundedW _ (if nd.next.isNone then none else l.tail) = true
        rw [hnone]
        rfl
    | cons b bs =>
      cases vs with
      | nil => rw [chainSeg_cons_nil] at htl; cases htl
      | cons w ws =>
        have hsome : nd.next = some b := by rw [hnx']; rfl
        have hgl : (a :: b :: bs).getLast? = (b :: bs).getLast? := List.getLast?_cons_cons
        obtain ⟨g, hg⟩ := exists_getLast? (show (b :: bs) ≠ ([] : List Nat) by simp)
        rw [hgl, hg] at htail
        obtain ⟨hlt, halive⟩ := upgrade_eq_some htail
        have hgmem : g ∈ b :: bs := mem_of_getLast? hg
        have hgne : a ≠ g := fun he => hanotin (he ▸ hgmem)
        have hchain4 : chainB (freeNode (setNext h a none) a) (b :: bs) (w :: ws) = true := by
          rcases chainSeg_cons_iff.mp hchain3 with ⟨bnd, hbnd, hbv, hbp, hbnx, hbtl⟩
          refine chainSeg_cons_iff.mpr ⟨bnd, hbnd, hbv, ?_, hbnx, hbtl⟩
          show deadRef _ bnd.prev = true
          have hbp' : bnd.prev = some a := hbp
          rw [hbp']
          simp only [deadRef, Bool.and_eq_true, decide_eq_true_eq,
            Option.isNone_iff_eq_none]
          refine ⟨?_, hfree_at⟩
          rw [length_freeNode, length_setNext]
          exact halt
        simp only [hsome, Option.isNone_some, Bool.false_eq_true, if_false]
        refine ⟨(List.nodup_cons.mp hnd).2, hchain4, rfl, ?_, ?_⟩
        · show upgrade (freeNode (setNext h a none) a) l.tail = (b :: bs).getLast?
          rw [hlt, hg]
          apply upgrade_some_of_alive
          rw [nodeAt_freeNode_ne hgne, alive_setNext]
          exact halive
        · show boundedW (freeNode (setNext h a none) a) l.tail = true
          rw [hlt]
          simp only [boundedW, length_freeNode, length_setNext, decide_eq_true_eq]
          exact nodeAt_isSome_lt halive

theorem Inv_pop_tail {h : Heap} {l : LList} {addrs : List Nat} {vals : List Int}
    (hne : addrs ≠ []) (hInv : Inv h l addrs vals) :
    (pop_tail h l).2.2 = vals.getLast? ∧
      Inv (pop_tail h l).1 (pop_tail h l).2.1 addrs.dropLast vals.dropLast := by
  obtain ⟨hnd, hc, hfirst, htail, hbdd⟩ := hInv
  obtain ⟨g, hg⟩ := exists_getLast? hne
  rw [hg] at htail
  rcases chainSeg_snoc_decomp hg hc with ⟨w, hw, hfront, hsing⟩
  rcases chainSeg_singleton.mp hsing with ⟨gnd, hgnd, hval, hprevOK, hnextnone⟩
  have halive : (nodeAt h g).isSome = true := by simp [hgnd]
  have hglt : g < h.length := nodeAt_lt_length hgnd
  simp only [pop_tail, htail, hgnd]
  constructor
  · rw [hval]
    exact hw.symm
  · by_cases hfe : addrs.dropLast = []
    · have hdead : deadRef h gnd.prev = true := by
        rw [hfe] at hprevOK
        exact hprevOK
      have hupnone : upgrade h gnd.prev = none := deadRef_upgrade hdead
      simp only [hupnone, Option.isNone_none, if_true]
      have hvfe : vals.dropLast = [] := by
        have h1 : vals.dropLast.length = 0 := by
          rw [List.length_dropLast, ← chainSeg_lengths hc]
          have h2 : addrs.dropLast.length = 0 := by rw [hfe]; rfl
          rw [List.length_dropLast] at h2
          omega
        exact List.length_eq_zero.mp h1
      rw [hfe, hvfe]
      refine ⟨List.nodup_nil, chainSeg_nil _ _ _, rfl, ?_, ?_⟩
      · exact deadRef_upgrade (deadRef_freeNode _ (deadRef_setPrev _ _ hdead))
      · cases hwp : gnd.prev with
        | none => rfl
        | some b =>
          rw [hwp] at hdead
          simp only [deadRef, Bool.and_eq_true, decide_eq_true_eq] at hdead
          simp only [boundedW, length_freeNode, length_setPrev, decide_eq_true_eq]
          exact hdead.1
    · obtain ⟨g2, hg2⟩ := exists_getLast? hfe
      have hprev2 : gnd.prev = some g2 := by
        rw [hg2] at hprevOK
        exact hprevOK
      have hg2mem : g2 ∈ addrs.dropLast := mem_of_getLast? hg2
      have hg2alive : (nodeAt h g2).isSome = true := chainSeg_alive hfront g2 hg2mem
      have hg2lt : g2 < h.length := nodeAt_isSome_lt hg2alive
      have hgnotin : g ∉ addrs.dropLast := nodup_last_notmem_dropLast hnd hg
      have hg2ne : g ≠ g2 := fun he => hgnotin (he ▸ hg2mem)
      have hup2 : upgrade h gnd.prev = some g2 := by
        rw [hprev2]
        exact upgrade_some_of_alive hg2alive
      have hup3 : upgrade (setNext h g2 none) gnd.prev = some g2 := by
        rw [upgrade_setNext]
        exact hup2
      simp only [hup2, hup3, Option.isNone_some, Bool.false_eq_true, if_false]
      have hnddl : addrs.dropLast.Nodup :=
        List.Nodup.sublist (List.dropLast_sublist addrs) hnd
      have hch1 : chainSeg (setNext h g2 none) none addrs.dropLast vals.dropLast
          none = true := chainSeg_retarget hg2 hnddl hfront
      have hch2 : chainSeg (setPrev (setNext h g2 none) g none) none
          addrs.dropLast vals.dropLast none = true :=
        chainSeg_setPrev_notmem hgnotin hch1
      have hch3 := chainSeg_freeNode_notmem hgnotin hch2
      refine ⟨hnddl, hch3, ?_, ?_, ?_⟩
      · rw [hfirst]
        conv_lhs => rw [← List.dropLast_append_getLast hne]
        rw [List.head?_append,
          Option.or_of_isSome (by rw [List.head?_isSome]; exact hfe)]
      · rw [hprev2, hg2]
        apply upgrade_some_of_alive
        rw [nodeAt_freeNode_ne hg2ne, alive_setPrev, alive_setNext]
        exact hg2alive
      · rw [hprev2]
        simp only [boundedW, length_freeNode, length_setPrev, length_setNext,
          decide_eq_true_eq]
        exact hg2lt

theorem Inv_concat {h : Heap} {l1 l2 : LList} {addrs1 addrs2 : List Nat}
    {vals1 vals2 : List Int}
    (hInv1 : Inv h l1 addrs1 vals1) (hInv2 : Inv h l2 addrs2 vals2)
    (hdisj : ∀ x ∈ addrs1, x ∉ addrs2) :
    Inv (concat h l1 l2).1 (concat h l1 l2).2 (addrs1 ++ addrs2) (vals1 ++ vals2) := by
  obtain ⟨hnd1, hc1, hf1, ht1, hb1⟩ := hInv1
  obtain ⟨hnd2, hc2, hf2, ht2, hb2⟩ := hInv2
  cases addrs2 with
  | nil =>
    have hve : vals2 = [] := chainSeg_vals_nil hc2
    subst hve
    have hf2' : l2.first = none := by rw [hf2]; rfl
    simp only [concat, hf2', List.append_nil]
    exact ⟨hnd1, hc1, hf1, ht1, hb1⟩
  | cons o rest =>
    cases vals2 with
    | nil => rw [chainB, chainSeg_cons_nil] at hc2; cases hc2
    | cons w2 ws2 =>
      have hf2' : l2.first = some o := by rw [hf2]; rfl
      rcases chainSeg_cons_iff.mp hc2 with ⟨ond, hond, hov, hop, honx, hotl⟩
      have holt : o < h.length := nodeAt_lt_length hond
      by_cases h1e : addrs1 = []
      · subst h1e
        have hv1e : vals1 = [] := chainSeg_vals_nil hc1
        subst hv1e
        rw [List.getLast?_nil] at ht1
        simp only [concat, hf2', ht1, List.nil_append]
        exact ⟨hnd2, hc2, rfl, ht2, hb2⟩
      · obtain ⟨g, hg⟩ := exists_getLast? h1e
        rw [hg] at ht1
        simp only [concat, hf2', ht1]
        have hgmem : g ∈ addrs1 := mem_of_getLast? hg
        have hgalive : (nodeAt h g).isSome = true := chainSeg_alive hc1 g hgmem
        have hglt : g < h.length := nodeAt_isSome_lt hgalive
        have honotin1 : o ∉ addrs1 := fun hm =>
          hdisj o hm (List.mem_cons_self o rest)
        have hgnotin2 : g ∉ o :: rest := hdisj g hgmem
        have hgo : g ≠ o := fun he => hgnotin2 (by rw [he]; exact List.mem_cons_self o rest)
        have honotinrest : o ∉ rest := (List.nodup_cons.mp hnd2).1
        -- chain for the receiver part, retargeted to `o`
        have hcA1 : chainSeg (setPrev h o (some g)) none addrs1 vals1 none = true :=
          chainSeg_setPrev_notmem honotin1 hc1
        have hcA2 : chainSeg (setNext (setPrev h o (some g)) g (some o))
            none addrs1 vals1 (some o) = true := chainSeg_retarget hg hnd1 hcA1
        -- chain for the argument part, with `o`'s prev rewired to `g`
        have hondP : nodeAt (setPrev h o (some g)) o = some { ond with prev := some g } :=
          nodeAt_setPrev_self _ hond
        have hondP2 : nodeAt (setNext (setPrev h o (some g)) g (some o)) o =
            some { ond with prev := some g } := by
          rw [nodeAt_setNext_ne _ hgo]
          exact hondP
        have hcB : chainSeg (setNext (setPrev h o (some g)) g (some o))
            (some g) (o :: rest) (w2 :: ws2) none = true := by
          refine chainSeg_cons_iff.mpr ⟨_, hondP2, hov, rfl, honx, ?_⟩
          exact chainSeg_setNext_notmem (by
              intro hm
              exact hgnotin2 (List.mem_cons_of_mem o hm))
            (chainSeg_setPrev_notmem honotinrest hotl)
        have hchain : chainB (setNext (setPrev h o (some g)) g (some o))
            (addrs1 ++ o :: rest) (vals1 ++ w2 :: ws2) = true := by
          rw [chainB, chainSeg_append_decomp _ (chainSeg_lengths hc1),
            Bool.and_eq_true]
          constructor
          · exact hcA2
          · rw [hg]
            exact hcB
        refine ⟨?_, hchain, ?_, ?_, ?_⟩
        · rw [List.nodup_append]
          exact ⟨hnd1, hnd2, hdisj⟩
        · show l1.first = (addrs1 ++ o :: rest).head?
          rw [hf1, List.head?_append,
            Option.or_of_isSome (by rw [List.head?_isSome]; exact h1e)]
        · show upgrade _ l2.tail = (addrs1 ++ o :: rest).getLast?
          rw [upgrade_setNext, upgrade_setPrev, ht2, List.getLast?_append]
          rw [Option.or_of_isSome (by rw [List.getLast?_isSome]; simp)]
        · show boundedW _ l2.tail = true
          cases hw : l2.tail with
          | none => rfl
          | some b =>
            rw [hw] at hb2
            simp only [boundedW, decide_eq_true_eq, length_setNext,
              length_setPrev] at hb2 ⊢
            exact hb2

/-! ## Draining a list by repeated pops -/

theorem popAllFirst_of_Inv :
    ∀ (addrs : List Nat) {vals : List Int} {h : Heap} {l : LList},
      Inv h l addrs vals → popAllFirst addrs.length h l = vals := by
  intro addrs
  induction addrs with
  | nil =>
    intro vals h l hInv
    have hv : vals = [] := chainSeg_vals_nil hInv.2.1
    subst hv
    rfl
  | cons a as ih =>
    intro vals h l hInv
    cases vals with
    | nil =>
      have hc := hInv.2.1
      rw [chainB, chainSeg_cons_nil] at hc
      cases hc
    | cons v vs =>
      obtain ⟨hval, hInv2⟩ := Inv_pop_first hInv
      rcases hp : pop_first h l with ⟨h2, l2, r⟩
      rw [hp] at hval hInv2
      simp only at hval hInv2
      show popAllFirst (as.length + 1) h l = v :: vs
      simp only [popAllFirst, hp, hval]
      rw [ih hInv2]

theorem popAllTail_of_Inv :
    ∀ (n : Nat) {addrs : List Nat} {vals : List Int} {h : Heap} {l : LList},
      addrs.length = n → Inv h l addrs vals → popAllTail n h l = vals.reverse := by
  intro n
  induction n with
  | zero =>
    intro addrs vals h l hlen hInv
    have ha : addrs = [] := List.length_eq_zero.mp hlen
    subst ha
    have hv : vals = [] := chainSeg_vals_nil hInv.2.1
    subst hv
    rfl
  | succ k ih =>
    intro addrs vals h l hlen hInv
    have hane : addrs ≠ [] := by
      intro he
      rw [he] at hlen
      simp at hlen
    have hvne : vals ≠ [] := by
      intro he
      have hl2 := chainSeg_lengths hInv.2.1
      rw [he, hlen] at hl2
      simp at hl2
    obtain ⟨hval, hInv2⟩ := Inv_pop_tail hane hInv
    obtain ⟨wv, hwv⟩ := exists_getLast? hvne
    rcases hp : pop_tail h l with ⟨h2, l2, r⟩
    rw [hp] at hval hInv2
    simp only at hval hInv2
    simp only [popAllTail, hp, hval, hwv]
    rw [ih (by rw [List.length_dropLast, hlen]; omega) hInv2]
    have hvdec : vals.dropLast ++ [wv] = vals := by
      have h1 := List.dropLast_append_getLast hvne
      have h2 : vals.getLast hvne = wv := by
        rw [List.getLast?_eq_getLast _ hvne, Option.some.injEq] at hwv
        exact hwv
      rwa [h2] at h1
    conv_rhs => rw [← hvdec]
    rw [List.reverse_concat]

theorem popSeq_of_Inv :
    ∀ (dirs : List Bool) {addrs : List Nat} {vals : List Int} {h : Heap} {l : LList},
      dirs.length = addrs.length → Inv h l addrs vals →
      Inv (popSeq dirs h l).1 (popSeq dirs h l).2 [] [] := by
  intro dirs
  induction dirs with
  | nil =>
    intro addrs vals h l hlen hInv
    have ha : addrs = [] := List.length_eq_zero.mp hlen.symm
    subst ha
    have hv : vals = [] := chainSeg_vals_nil hInv.2.1
    subst hv
    exact hInv
  | cons d ds ih =>
    intro addrs vals h l hlen hInv
    have hane : addrs ≠ [] := by
      intro he
      rw [he] at hlen
      simp at hlen
    cases d with
    | true =>
      cases addrs with
      | nil => exact absurd rfl hane
      | cons a as =>
        cases vals with
        | nil =>
          have hc := hInv.2.1
          rw [chainB, chainSeg_cons_nil] at hc
          cases hc
        | cons v vs =>
          obtain ⟨-, hInv2⟩ := Inv_pop_first hInv
          have hlen2 : ds.length = as.length := by simpa using hlen
          simp only [popSeq, if_true]
          exact ih hlen2 hInv2
    | false =>
      obtain ⟨-, hInv2⟩ := Inv_pop_tail hane hInv
      have hlen2 : ds.length = addrs.dropLast.length := by
        rw [List.length_dropLast]
        simp only [List.length_cons] at hlen
        omega
      simp only [popSeq, if_false, Bool.false_eq_true]
      exact ih hlen2 hInv2

/-! ## The append-built list (`slow_from_vec`) -/

theorem append_length (h : Heap) (l : LList) (x : Int) :
    (append h l x).1.length = h.length + 1 := by
  rcases hu : upgrade h l.tail with _ | t <;>
    simp [append, hu, length_setNext]

theorem concat_length (h : Heap) (l o : LList) :
    (concat h l o).1.length = h.length := by
  rcases hof : o.first with _ | o2
  · simp [concat, hof]
  · rcases hu : upgrade h l.tail with _ | t <;>
      simp [concat, hof, hu, length_setNext, length_setPrev]

theorem slow_from_vec_append (v : List Int) (x : Int) :
    slow_from_vec (v ++ [x]) = append (slow_from_vec v).1 (slow_from_vec v).2 x := by
  unfold slow_from_vec
  rw [List.foldl_append]
  rfl

theorem Inv_slow_from_vec (v : List Int) :
    Inv (slow_from_vec v).1 (slow_from_vec v).2 (List.range' 0 v.length) v ∧
      (slow_from_vec v).1.length = v.length := by
  induction v using List.reverseRecOn with
  | nil => exact ⟨Inv_new _, rfl⟩
  | append_singleton v x ih =>
    obtain ⟨hInv, hlen⟩ := ih
    rw [slow_from_vec_append]
    constructor
    · have h2 := Inv_append hInv x
      rw [hlen] at h2
      have hr : List.range' 0 ((v ++ [x]).length) =
          List.range' 0 v.length ++ [v.length] := by
        rw [List.length_append, List.length_singleton, List.range'_concat]
        simp
      rw [hr]
      exact h2
    · rw [append_length, hlen, List.length_append, List.length_singleton]

/-! ## The teardown loop of `Drop for Node` -/

theorem dropLoop_sever :
    ∀ (as : List Nat) (h : Heap) (a : Nat) (vals : List Int) (p : Option Nat)
      (fuel : Nat),
      chainSeg h p (a :: as) vals none = true → (a :: as).Nodup →
      (a :: as).length ≤ fuel →
      (∀ b ∈ a :: as, ((nodeAt (dropLoop fuel h a) b).bind Node.next) = none) ∧
      (∀ b, b ∉ a :: as → nodeAt (dropLoop fuel h a) b = nodeAt h b) := by
  intro as
  induction as with
  | nil =>
    intro h a vals p fuel hc hnd hf
    cases vals with
    | nil => rw [chainSeg_cons_nil] at hc; cases hc
    | cons v vs =>
      rcases chainSeg_cons_iff.mp hc with ⟨nd, hnd0, -, -, hnx, -⟩
      have hnone : nd.next = none := by rw [hnx]; rfl
      obtain ⟨f, rfl⟩ : ∃ f, fuel = f + 1 := by
        cases fuel with
        | zero => simp at hf
        | succ f => exact ⟨f, rfl⟩
      have hred : dropLoop (f + 1) h a = h := by
        simp only [dropLoop, hnd0, hnone]
      rw [hred]
      constructor
      · intro b hb
        rcases List.mem_singleton.mp hb with rfl
        rw [hnd0]
        simpa using hnone
      · intro b _
        rfl
  | cons a2 as2 ih =>
    intro h a vals p fuel hc hnd hf
    cases vals with
    | nil => rw [chainSeg_cons_nil] at hc; cases hc
    | cons v vs =>
      rcases chainSeg_cons_iff.mp hc with ⟨nd, hnd0, -, -, hnx, htl⟩
      have hsome : nd.next = some a2 := by rw [hnx]; rfl
      have hanotin : a ∉ a2 :: as2 := (List.nodup_cons.mp hnd).1
      have hane2 : a ≠ a2 := fun he => hanotin (by rw [he]; exact List.mem_cons_self _ _)
      obtain ⟨f, rfl⟩ : ∃ f, fuel = f + 1 := by
        cases fuel with
        | zero => simp at hf
        | succ f => exact ⟨f, rfl⟩
      cases vs with
      | nil => rw [chainSeg_cons_nil] at htl; cases htl
      | cons v2 vs2 =>
        rcases chainSeg_cons_iff.mp htl with ⟨nd2, hnd2, -, -, hnx2, htl2⟩
        have hnd2' : nodeAt (setNext h a none) a2 = some nd2 := by
          rw [nodeAt_setNext_ne _ hane2]
          exact hnd2
        cases as2 with
        | nil =>
          -- the successor is the last node: loop exits returning `h1`
          have hnone2 : nd2.next = none := by rw [hnx2]; rfl
          have hred : dropLoop (f + 1) h a = setNext h a none := by
            simp only [dropLoop, hnd0, hsome, hnd2', Option.some_bind, hnone2]
          rw [hred]
          constructor
          · intro b hb
            rcases List.mem_cons.mp hb with rfl | hb2
            · rw [nodeAt_setNext_self _ hnd0]
              rfl
            · rcases List.mem_singleton.mp hb2 with rfl
              rw [hnd2']
              simpa using hnone2
          · intro b hb
            rw [nodeAt_setNext_ne _ (fun he => hb (by rw [← he]; exact List.mem_cons_self _ _))]
        | cons a3 as3 =>
          have hnx2' : nd2.next = some a3 := by rw [hnx2]; rfl
          have hred : dropLoop (f + 1) h a = dropLoop f (setNext h a none) a2 := by
            simp only [dropLoop, hnd0, hsome, hnd2', Option.some_bind, hnx2']
          rw [hred]
          have hchain2 : chainSeg (setNext h a none) (some a) (a2 :: a3 :: as3)
              (v2 :: vs2) none = true := chainSeg_setNext_notmem hanotin htl
          have hnd2nd : (a2 :: a3 :: as3).Nodup := (List.nodup_cons.mp hnd).2
          have hf2 : (a2 :: a3 :: as3).length ≤ f := by
            simp only [List.length_cons] at hf ⊢
            omega
          obtain ⟨hsev, hframe⟩ := ih (setNext h a none) a2 (v2 :: vs2) (some a) f
            hchain2 hnd2nd hf2
          constructor
          · intro b hb
            rcases List.mem_cons.mp hb with rfl | hb2
            · rw [hframe b hanotin, nodeAt_setNext_self _ hnd0]
              rfl
            · exact hsev b hb2
          · intro b hb
            have hb2 : b ∉ a2 :: a3 :: as3 := fun hm =>
              hb (List.mem_cons_of_mem _ hm)
            rw [hframe b hb2,
              nodeAt_setNext_ne _ (fun he => hb (by rw [← he]; exact List.mem_cons_self _ _))]

/-! ## Peeking under the invariant -/

theorem peek_front_of_Inv {h : Heap} {l : LList} {addrs : List Nat}
    {vals : List Int} (hInv : Inv h l addrs vals) :
    peek_front h l = vals.head? := by
  obtain ⟨-, hc, hfirst, -, -⟩ := hInv
  cases addrs with
  | nil =>
    have hv : vals = [] := chainSeg_vals_nil hc
    subst hv
    have hf : l.first = none := by rw [hfirst]; rfl
    simp [peek_front, hf]
  | cons a as =>
    cases vals with
    | nil => rw [chainB, chainSeg_cons_nil] at hc; cases hc
    | cons v vs =>
      rcases chainSeg_cons_iff.mp hc with ⟨nd, hnd0, hv, -, -, -⟩
      have hf : l.first = some a := by rw [hfirst]; rfl
      simp [peek_front, hf, hnd0, hv]

theorem peek_end_of_Inv {h : Heap} {l : LList} {addrs : List Nat}
    {vals : List Int} (hInv : Inv h l addrs vals) :
    peek_end h l = vals.getLast? := by
  obtain ⟨-, hc, -, htail, -⟩ := hInv
  by_cases hae : addrs = []
  · subst hae
    have hv : vals = [] := chainSeg_vals_nil hc
    subst hv
    rw [List.getLast?_nil] at htail
    simp [peek_end, htail]
  · obtain ⟨g, hg⟩ := exists_getLast? hae
    rw [hg] at htail
    rcases chainSeg_getLast_value hg hc with ⟨nd, hnd0, hval⟩
    simp [peek_end, htail, hnd0, hval]

instance (h : Heap) (l : LList) (addrs : List Nat) (vals : List Int) :
    Decidable (Inv h l addrs vals) :=
  inferInstanceAs (Decidable (addrs.Nodup ∧ chainB h addrs vals = true ∧
    l.first = addrs.head? ∧ upgrade h l.tail = addrs.getLast? ∧
    boundedW h l.tail = true))

/-! ## The claims -/

/-- Claim C1: round-trip — for every finite sequence `v`, building a list with
`from_vec v` and reading it back gives `to_vec = v` and
`to_vec_rev = v.reverse`; in particular for empty `v` both reads are empty. -/
theorem C1_round_trip (v : List Int) :
    (to_vec (from_vec [] v).1 (from_vec [] v).2).1 = v ∧
    (to_vec_rev (from_vec [] v).1 (from_vec [] v).2).1 = v.reverse := by
  have hInv := Inv_from_vec [] v
  have hlen : (List.range' (List.length ([] : Heap)) v.length).length ≤
      (from_vec [] v).1.length := by
    rw [List.length_range', from_vec_length]
    simp
  exact ⟨to_vec_of_Inv hInv hlen, to_vec_rev_of_Inv hInv hlen⟩

/-- Claim C2 (evaluation of the code at the failing input): on the one-element
list `from_vec [0]`, a forward step yields the meeting element but clears only
the forward cursor — `revcursor` stays on the meeting node — so the following
backward step on the same cursor pair yields the meeting element a second
time.  This contradicts the claim that both cursors become empty and that no
interleaving yields the meeting element twice. -/
theorem C2_meeting_double_yield :
    (IterList.next (from_vec [] [0]).1
        (iter (from_vec [] [0]).1 (from_vec [] [0]).2)).1 = some 0 ∧
    (IterList.next (from_vec [] [0]).1
        (iter (from_vec [] [0]).1 (from_vec [] [0]).2)).2.1.cursor = none ∧
    (IterList.next (from_vec [] [0]).1
        (iter (from_vec [] [0]).1 (from_vec [] [0]).2)).2.1.revcursor = some 0 ∧
    (IterList.next_back (from_vec [] [0]).1
        (IterList.next (from_vec [] [0]).1
          (iter (from_vec [] [0]).1 (from_vec [] [0]).2)).2.1).1 = some 0 := by
  decide

/-- Claim C3: concatenation — with `from_vec a` and `from_vec b` built on one
heap, `to_vec` after `concat` returns `a ++ b`; and when the argument list is
empty, `concat` returns the heap and the receiver handles unchanged. -/
theorem C3_concat (a b : List Int) :
    (to_vec
        (concat (from_vec (from_vec [] a).1 b).1 (from_vec [] a).2
          (from_vec (from_vec [] a).1 b).2).1
        (concat (from_vec (from_vec [] a).1 b).1 (from_vec [] a).2
          (from_vec (from_vec [] a).1 b).2).2).1 = a ++ b ∧
    (b = [] →
      concat (from_vec (from_vec [] a).1 b).1 (from_vec [] a).2
          (from_vec (from_vec [] a).1 b).2 =
        ((from_vec (from_vec [] a).1 b).1, (from_vec [] a).2)) := by
  constructor
  · have hInv1 := Inv_from_vec [] a
    have hInv2 := Inv_from_vec (from_vec [] a).1 b
    have hlen1 : (from_vec ([] : Heap) a).1.length = a.length := by
      rw [from_vec_length]
      simp
    have hInv1' : Inv (from_vec (from_vec [] a).1 b).1 (from_vec [] a).2
        (List.range' (List.length ([] : Heap)) a.length) a := by
      refine Inv_mono ?_ ?_ hInv1
      · simp only [from_vec_length]
        omega
      · intro x hx
        exact from_vec_at_lower hx
    have hdisj : ∀ x ∈ List.range' (List.length ([] : Heap)) a.length,
        x ∉ List.range' (from_vec [] a).1.length b.length := by
      intro x hx hx2
      rw [List.mem_range'] at hx hx2
      obtain ⟨i, hi, rfl⟩ := hx
      obtain ⟨i2, hi2, heq⟩ := hx2
      rw [hlen1] at heq
      simp at heq hi hi2 ⊢
      omega
    have hInvC := Inv_concat hInv1' hInv2 hdisj
    have hlenC : (List.range' (List.length ([] : Heap)) a.length ++
        List.range' (from_vec [] a).1.length b.length).length ≤
        (concat (from_vec (from_vec [] a).1 b).1 (from_vec [] a).2
          (from_vec (from_vec [] a).1 b).2).1.length := by
      rw [concat_length, List.length_append, List.length_range', List.length_range']
      simp only [from_vec_length]
      omega
    exact to_vec_of_Inv hInvC hlenC
  · intro hb
    subst hb
    simp [from_vec, concat]

/-- Witness for C3 at `a = [3, 8]`, `b = []`, exercising the no-op branch. -/
theorem C3_concat_witness :
    (to_vec
        (concat (from_vec (from_vec [] [3, 8]).1 []).1 (from_vec [] [3, 8]).2
          (from_vec (from_vec [] [3, 8]).1 []).2).1
        (concat (from_vec (from_vec [] [3, 8]).1 []).1 (from_vec [] [3, 8]).2
          (from_vec (from_vec [] [3, 8]).1 []).2).2).1 = [3, 8] ++ [] ∧
    concat (from_vec (from_vec [] [3, 8]).1 []).1 (from_vec [] [3, 8]).2
        (from_vec (from_vec [] [3, 8]).1 []).2 =
      ((from_vec (from_vec [] [3, 8]).1 []).1, (from_vec [] [3, 8]).2) :=
  ⟨(C3_concat [3, 8] []).1, (C3_concat [3, 8] []).2 rfl⟩

/-- Claim C4: non-recursive teardown — for a chain built by `from_vec` from at
least 100000 values, the severing loop of `Drop for Node` (run from the head
node's successor with fuel equal to the heap size, as `dropNode` does)
terminates within its fuel and leaves every successor node `j`, `0 < j < n`,
with an empty `next` link, so per-node destruction afterwards cannot recurse
along the chain and stack use stays constant per node. -/
theorem C4_teardown (v : List Int) (j : Nat) (hlen : 100000 ≤ v.length)
    (hj0 : 0 < j) (hjn : j < v.length) :
    ((nodeAt (dropNode (from_vec [] v).1 0) j).bind Node.next) = none := by
  obtain ⟨hnd, hc, -, -, -⟩ := Inv_from_vec [] v
  cases v with
  | nil => simp at hlen
  | cons v0 vrest =>
    have hr : List.range' (List.length ([] : Heap)) (v0 :: vrest).length =
        0 :: List.range' 1 vrest.length := by
      show List.range' 0 (vrest.length + 1) = _
      rw [List.range'_succ]
    rw [hr] at hc
    rcases chainSeg_cons_iff.mp hc with ⟨nd, hnd0, -, -, hnx, htl⟩
    cases vrest with
    | nil => simp at hlen
    | cons v1 vrest2 =>
      have hrange1 : List.range' 1 (v1 :: vrest2).length =
          1 :: List.range' 2 vrest2.length := by
        show List.range' 1 (vrest2.length + 1) = _
        rw [List.range'_succ]
      rw [hrange1] at htl
      have hnx1 : nd.next = some 1 := by
        rw [hnx, hrange1]
        rfl
      have hred : dropNode (from_vec [] (v0 :: v1 :: vrest2)).1 0 =
          dropLoop (from_vec [] (v0 :: v1 :: vrest2)).1.length
            (from_vec [] (v0 :: v1 :: vrest2)).1 1 := by
        simp only [dropNode, hnd0, Option.some_bind, hnx1]
      rw [hred]
      have hndup2 : (1 :: List.range' 2 vrest2.length).Nodup := by
        rw [← hrange1]
        exact List.nodup_range' _ _
      have hfuel : (1 :: List.range' 2 vrest2.length).length ≤
          (from_vec [] (v0 :: v1 :: vrest2)).1.length := by
        rw [from_vec_length]
        simp [List.length_range']
      obtain ⟨hsev, -⟩ := dropLoop_sever (List.range' 2 vrest2.length)
        (from_vec [] (v0 :: v1 :: vrest2)).1 1 (v1 :: vrest2) (some 0) _
        htl hndup2 hfuel
      apply hsev
      rw [← hrange1, List.mem_range']
      refine ⟨j - 1, ?_, ?_⟩
      · simp only [List.length_cons] at hjn ⊢
        omega
      · omega

/-- Witness for C4 at a 100000-element list, checked at successor index 1. -/
theorem C4_teardown_witness :
    100000 ≤ (List.replicate 100000 (0 : Int)).length ∧ 0 < 1 ∧
      1 < (List.replicate 100000 (0 : Int)).length ∧
      ((nodeAt (dropNode (from_vec [] (List.replicate 100000 (0 : Int))).1 0) 1).bind
        Node.next) = none :=
  ⟨by rw [List.length_replicate], by decide,
    by rw [List.length_replicate]; omega,
    C4_teardown (List.replicate 100000 (0 : Int)) 1 (by rw [List.length_replicate])
      (by decide) (by rw [List.length_replicate]; omega)⟩

/-- Claim C5: pop/append duality — building a list by `append`-ing
`v₀ … vₙ₋₁` in order (`slow_from_vec`), repeated `pop_first` yields
`v₀, …, vₙ₋₁` and, on a list built the same way, repeated `pop_tail` yields
`vₙ₋₁, …, v₀`. -/
theorem C5_pop_append_duality (v : List Int) :
    popAllFirst v.length (slow_from_vec v).1 (slow_from_vec v).2 = v ∧
    popAllTail v.length (slow_from_vec v).1 (slow_from_vec v).2 = v.reverse := by
  obtain ⟨hInv, -⟩ := Inv_slow_from_vec v
  constructor
  · have hres := popAllFirst_of_Inv (List.range' 0 v.length) hInv
    rwa [List.length_range'] at hres
  · exact popAllTail_of_Inv v.length (by rw [List.length_range']) hInv

/-- Claim C6: the structural invariant `Inv` — the addresses reachable along
`next` from `first` form a duplicate-free chain carrying the values, each
interior node's `prev` is literally its predecessor (so `node.next.prev` and
`node.prev.next` resolve back to the node) while the head's `prev` resolves to
nothing, the chain ends in a node with empty `next`, and the weak `tail`
resolves to the chain's last address, or to nothing exactly when `first` is
empty — is established by `new` and `from_vec` and preserved by `append`,
`insert_first`, `pop_first`, `pop_tail` and `concat`. -/
theorem C6_invariant_preservation :
    (∀ h : Heap, Inv h LList.new [] []) ∧
    (∀ (h : Heap) (v : List Int),
      Inv (from_vec h v).1 (from_vec h v).2 (List.range' h.length v.length) v) ∧
    (∀ (h : Heap) (l : LList) (addrs : List Nat) (vals : List Int) (x : Int),
      Inv h l addrs vals →
      Inv (append h l x).1 (append h l x).2 (addrs ++ [h.length]) (vals ++ [x])) ∧
    (∀ (h : Heap) (l : LList) (addrs : List Nat) (vals : List Int) (x : Int),
      Inv h l addrs vals →
      Inv (insert_first h l x).1 (insert_first h l x).2
        (h.length :: addrs) (x :: vals)) ∧
    (∀ (h : Heap) (l : LList) (a : Nat) (as : List Nat) (v : Int) (vs : List Int),
      Inv h l (a :: as) (v :: vs) →
      (pop_first h l).2.2 = some v ∧
        Inv (pop_first h l).1 (pop_first h l).2.1 as vs) ∧
    (∀ (h : Heap) (l : LList) (addrs : List Nat) (vals : List Int),
      addrs ≠ [] → Inv h l addrs vals →
      (pop_tail h l).2.2 = vals.getLast? ∧
        Inv (pop_tail h l).1 (pop_tail h l).2.1 addrs.dropLast vals.dropLast) ∧
    (∀ (h : Heap) (l1 l2 : LList) (addrs1 addrs2 : List Nat)
        (vals1 vals2 : List Int),
      Inv h l1 addrs1 vals1 → Inv h l2 addrs2 vals2 →
      (∀ x ∈ addrs1, x ∉ addrs2) →
      Inv (concat h l1 l2).1 (concat h l1 l2).2
        (addrs1 ++ addrs2) (vals1 ++ vals2)) ∧
    (∀ (h : Heap) (l : LList) (addrs : List Nat) (vals : List Int),
      Inv h l addrs vals → (l.first = none ↔ upgrade h l.tail = none)) := by
  refine ⟨Inv_new, fun h v => Inv_from_vec h v,
    fun h l addrs vals x hInv => Inv_append hInv x,
    fun h l addrs vals x hInv => Inv_insert_first hInv x,
    fun h l a as v vs hInv => Inv_pop_first hInv,
    fun h l addrs vals hne hInv => Inv_pop_tail hne hInv,
    fun h l1 l2 a1 a2 v1 v2 hI1 hI2 hd => Inv_concat hI1 hI2 hd, ?_⟩
  intro h l addrs vals hInv
  obtain ⟨-, -, hfirst, htail, -⟩ := hInv
  rw [hfirst, htail, List.head?_eq_none_iff, List.getLast?_eq_none_iff]

/-- Witness for C6: each hypothesis-bearing conjunct applied at a concrete
two-element list, hypotheses checked by evaluation. -/
theorem C6_invariant_preservation_witness :
    Inv (append (from_vec [] [1, 2]).1 (from_vec [] [1, 2]).2 5).1
      (append (from_vec [] [1, 2]).1 (from_vec [] [1, 2]).2 5).2
      ([0, 1] ++ [(from_vec [] [1, 2]).1.length]) ([1, 2] ++ [5]) ∧
    Inv (insert_first (from_vec [] [1, 2]).1 (from_vec [] [1, 2]).2 7).1
      (insert_first (from_vec [] [1, 2]).1 (from_vec [] [1, 2]).2 7).2
      ((from_vec [] [1, 2]).1.length :: [0, 1]) (7 :: [1, 2]) ∧
    ((pop_first (from_vec [] [1, 2]).1 (from_vec [] [1, 2]).2).2.2 = some 1 ∧
      Inv (pop_first (from_vec [] [1, 2]).1 (from_vec [] [1, 2]).2).1
        (pop_first (from_vec [] [1, 2]).1 (from_vec [] [1, 2]).2).2.1 [1] [2]) ∧
    ((pop_tail (from_vec [] [1, 2]).1 (from_vec [] [1, 2]).2).2.2 =
        ([1, 2] : List Int).getLast? ∧
      Inv (pop_tail (from_vec [] [1, 2]).1 (from_vec [] [1, 2]).2).1
        (pop_tail (from_vec [] [1, 2]).1 (from_vec [] [1, 2]).2).2.1
        ([0, 1] : List Nat).dropLast ([1, 2] : List Int).dropLast) ∧
    Inv (concat (from_vec (from_vec [] [1]).1 [2]).1 (from_vec [] [1]).2
        (from_vec (from_vec [] [1]).1 [2]).2).1
      (concat (from_vec (from_vec [] [1]).1 [2]).1 (from_vec [] [1]).2
        (from_vec (from_vec [] [1]).1 [2]).2).2 ([0] ++ [1]) ([1] ++ [2]) ∧
    ((from_vec [] [1, 2]).2.first = none ↔
      upgrade (from_vec [] [1, 2]).1 (from_vec [] [1, 2]).2.tail = none) :=
  ⟨C6_invariant_preservation.2.2.1 _ _ [0, 1] [1, 2] 5 (by decide),
   C6_invariant_preservation.2.2.2.1 _ _ [0, 1] [1, 2] 7 (by decide),
   C6_invariant_preservation.2.2.2.2.1 _ _ 0 [1] 1 [2] (by decide),
   C6_invariant_preservation.2.2.2.2.2.1 _ _ [0, 1] [1, 2] (by decide) (by decide),
   C6_invariant_preservation.2.2.2.2.2.2.1 _ _ _ [0] [1] [1] [2]
     (by decide) (by decide) (by decide),
   C6_invariant_preservation.2.2.2.2.2.2.2 _ _ [0, 1] [1, 2] (by decide)⟩

/-- Claim C7 (evaluation of the code at the failing input): after `pop_first`
on `from_vec [1, 2]`, the value is returned and `first` is advanced and the
popped node's `next` is severed, but the new first node's `prev` field still
holds the popped node's address (`some 0`) — the clearing branch reads
`first.next` after it was set to `None` and is dead code — so the
back-reference is merely left dangling at the freed slot and only *resolves*
to nothing; it is never cleared as the claim states. -/
theorem C7_pop_first_stale_prev :
    (pop_first (from_vec [] [1, 2]).1 (from_vec [] [1, 2]).2).2.2 = some 1 ∧
    (pop_first (from_vec [] [1, 2]).1 (from_vec [] [1, 2]).2).2.1.first = some 1 ∧
    nodeAt (pop_first (from_vec [] [1, 2]).1 (from_vec [] [1, 2]).2).1 1 =
      some { value := 2, prev := some 0, next := none } ∧
    nodeAt (pop_first (from_vec [] [1, 2]).1 (from_vec [] [1, 2]).2).1 0 = none ∧
    upgrade (pop_first (from_vec [] [1, 2]).1 (from_vec [] [1, 2]).2).1 (some 0) =
      none := by
  decide

/-- Claim C8: drain-to-empty — after any sequence of pops (each from either
end) that removes every element of a well-formed list, the state is
observationally a fresh empty list: `first` is empty and the weak `tail`
resolves to nothing, and a further `pop_first` or `pop_tail` returns no value
and leaves the state unchanged.  This covers popping the only element of a
1-node list from either end. -/
theorem C8_drain_to_empty (h : Heap) (l : LList) (addrs : List Nat)
    (vals : List Int) (dirs : List Bool) (hInv : Inv h l addrs vals)
    (hlen : dirs.length = addrs.length) :
    (popSeq dirs h l).2.first = none ∧
    upgrade (popSeq dirs h l).1 (popSeq dirs h l).2.tail = none ∧
    pop_first (popSeq dirs h l).1 (popSeq dirs h l).2 =
      ((popSeq dirs h l).1, (popSeq dirs h l).2, none) ∧
    pop_tail (popSeq dirs h l).1 (popSeq dirs h l).2 =
      ((popSeq dirs h l).1, (popSeq dirs h l).2, none) := by
  have hInv2 := popSeq_of_Inv dirs hlen hInv
  have hfirst := hInv2.2.2.1
  have htail := hInv2.2.2.2.1
  exact ⟨by rw [hfirst]; rfl, by rw [htail]; rfl,
    pop_first_empty hInv2, pop_tail_empty hInv2⟩

/-- Witness for C8: the 1-node list `from_vec [7]` drained by one `pop_tail`
and, separately, by one `pop_first`. -/
theorem C8_drain_to_empty_witness :
    ((popSeq [false] (from_vec [] [7]).1 (from_vec [] [7]).2).2.first = none ∧
      upgrade (popSeq [false] (from_vec [] [7]).1 (from_vec [] [7]).2).1
        (popSeq [false] (from_vec [] [7]).1 (from_vec [] [7]).2).2.tail = none ∧
      pop_first (popSeq [false] (from_vec [] [7]).1 (from_vec [] [7]).2).1
          (popSeq [false] (from_vec [] [7]).1 (from_vec [] [7]).2).2 =
        ((popSeq [false] (from_vec [] [7]).1 (from_vec [] [7]).2).1,
          (popSeq [false] (from_vec [] [7]).1 (from_vec [] [7]).2).2, none) ∧
      pop_tail (popSeq [false] (from_vec [] [7]).1 (from_vec [] [7]).2).1
          (popSeq [false] (from_vec [] [7]).1 (from_vec [] [7]).2).2 =
        ((popSeq [false] (from_vec [] [7]).1 (from_vec [] [7]).2).1,
          (popSeq [false] (from_vec [] [7]).1 (from_vec [] [7]).2).2, none)) ∧
    ((popSeq [true] (from_vec [] [7]).1 (from_vec [] [7]).2).2.first = none ∧
      upgrade (popSeq [true] (from_vec [] [7]).1 (from_vec [] [7]).2).1
        (popSeq [true] (from_vec [] [7]).1 (from_vec [] [7]).2).2.tail = none ∧
      pop_first (popSeq [true] (from_vec [] [7]).1 (from_vec [] [7]).2).1
          (popSeq [true] (from_vec [] [7]).1 (from_vec [] [7]).2).2 =
        ((popSeq [true] (from_vec [] [7]).1 (from_vec [] [7]).2).1,
          (popSeq [true] (from_vec [] [7]).1 (from_vec [] [7]).2).2, none) ∧
      pop_tail (popSeq [true] (from_vec [] [7]).1 (from_vec [] [7]).2).1
          (popSeq [true] (from_vec [] [7]).1 (from_vec [] [7]).2).2 =
        ((popSeq [true] (from_vec [] [7]).1 (from_vec [] [7]).2).1,
          (popSeq [true] (from_vec [] [7]).1 (from_vec [] [7]).2).2, none)) :=
  ⟨C8_drain_to_empty _ _ [0] [7] [false] (by decide) (by decide),
   C8_drain_to_empty _ _ [0] [7] [true] (by decide) (by decide)⟩

/-- Claim C9: empty-container error handling — on a well-formed list,
`peek_front`/`peek_end` return the value at `first`/`tail` (they take the
state read-only and return no modified state), `pop_first`/`pop_tail` return
the head/last value, all four return the explicit no-value result exactly
when the list is empty (`head?`/`getLast?` of the empty value sequence), and
on an empty list the pops also leave the state unchanged — no operation
aborts. -/
theorem C9_empty_container (h : Heap) (l : LList) (addrs : List Nat)
    (vals : List Int) (hInv : Inv h l addrs vals) :
    peek_front h l = vals.head? ∧
    peek_end h l = vals.getLast? ∧
    (pop_first h l).2.2 = vals.head? ∧
    (pop_tail h l).2.2 = vals.getLast? ∧
    (addrs = [] → pop_first h l = (h, l, none) ∧ pop_tail h l = (h, l, none)) := by
  refine ⟨peek_front_of_Inv hInv, peek_end_of_Inv hInv, ?_, ?_, ?_⟩
  · cases addrs with
    | nil =>
      have hv : vals = [] := chainSeg_vals_nil hInv.2.1
      subst hv
      rw [pop_first_empty hInv]
      rfl
    | cons a as =>
      cases vals with
      | nil =>
        have hc := hInv.2.1
        rw [chainB, chainSeg_cons_nil] at hc
        cases hc
      | cons v vs => exact (Inv_pop_first hInv).1
  · by_cases hae : addrs = []
    · subst hae
      have hv : vals = [] := chainSeg_vals_nil hInv.2.1
      subst hv
      rw [pop_tail_empty hInv]
      rfl
    · exact (Inv_pop_tail hae hInv).1
  · intro hae
    subst hae
    have hv : vals = [] := chainSeg_vals_nil hInv.2.1
    subst hv
    exact ⟨pop_first_empty hInv, pop_tail_empty hInv⟩

/-- Witness for C9: the empty list and the two-element list `from_vec [4, 5]`. -/
theorem C9_empty_container_witness :
    (peek_front [] LList.new = ([] : List Int).head? ∧
      peek_end [] LList.new = ([] : List Int).getLast? ∧
      (pop_first [] LList.new).2.2 = ([] : List Int).head? ∧
      (pop_tail [] LList.new).2.2 = ([] : List Int).getLast? ∧
      (([] : List Nat) = [] →
        pop_first [] LList.new = ([], LList.new, none) ∧
        pop_tail [] LList.new = ([], LList.new, none))) ∧
    (peek_front (from_vec [] [4, 5]).1 (from_vec [] [4, 5]).2 =
        ([4, 5] : List Int).head? ∧
      peek_end (from_vec [] [4, 5]).1 (from_vec [] [4, 5]).2 =
        ([4, 5] : List Int).getLast? ∧
      (pop_first (from_vec [] [4, 5]).1 (from_vec [] [4, 5]).2).2.2 =
        ([4, 5] : List Int).head? ∧
      (pop_tail (from_vec [] [4, 5]).1 (from_vec [] [4, 5]).2).2.2 =
        ([4, 5] : List Int).getLast? ∧
      (([0, 1] : List Nat) = [] →
        pop_first (from_vec [] [4, 5]).1 (from_vec [] [4, 5]).2 =
          ((from_vec [] [4, 5]).1, (from_vec [] [4, 5]).2, none) ∧
        pop_tail (from_vec [] [4, 5]).1 (from_vec [] [4, 5]).2 =
          ((from_vec [] [4, 5]).1, (from_vec [] [4, 5]).2, none))) :=
  ⟨C9_empty_container [] LList.new [] [] (by decide),
   C9_empty_container _ _ [0, 1] [4, 5] (by decide)⟩

/-- Claim C10: read-only traversal does not mutate the container — iterator
steps and full `to_vec` / `to_vec_rev` traversals return the heap unchanged,
so repeating a traversal from the resulting state returns the same sequence. -/
theorem C10_read_only_traversal (h : Heap) (l : LList) :
    (to_vec h l).2 = h ∧ (to_vec_rev h l).2 = h ∧
    (to_vec (to_vec h l).2 l).1 = (to_vec h l).1 ∧
    (to_vec_rev (to_vec_rev h l).2 l).1 = (to_vec_rev h l).1 ∧
    (∀ it : IterList,
      (IterList.next h it).2.2 = h ∧ (IterList.next_back h it).2.2 = h) := by
  have h1 : (to_vec h l).2 = h := collectFwd_heap h _ _
  have h2 : (to_vec_rev h l).2 = h := collectBwd_heap h _ _
  exact ⟨h1, h2, by rw [h1], by rw [h2], fun it => ⟨rfl, rfl⟩⟩

end Linked5
